import Mathlib

/-
  Verification of the Reynir parse-forest reducer (src/reducer.py) against its
  natural-language specification.

  The development shallow-embeds the code of `src/reducer.py`:

  * `Terminal`, `Token`, `BIN_Meaning` model the data consumed by the reducer.
    `BIN_Meaning` is translated from the namedtuple in `src/bindb.py`; the
    `Terminal` and token classes live in modules outside `src/` (grammar.py,
    fastparser.py), so they are modelled from the spec (sections 3 and 6).
  * `PNode` models the packed parse-forest node (spec section 3 recommends a
    tagged union of epsilon / token / nonterminal variants).  The forest
    traversal protocol (`fastparser.ParseForestNavigator`, not under `src/`)
    is modelled from spec section 4.1 as structural recursion over the tree;
    on a tree every node is visited exactly once, which is what the memoized
    walk guarantees on the shared forest.
  * `scorePos` / `calcScores` embed `Reducer._calc_terminal_scores`.
  * `reduceNode` embeds `Reducer.ParseForestReducer` together with
    `ReductionInfo`, and `go_with_score` / `go` embed the orchestrator.

  Python dicts keyed by terminals become association lists (`RDict`), sets of
  terminals become duplicate-free lists in first-insertion order, and the
  external tables (Preferences, VerbObjects, grammar._nt_scores) become the
  fields of `ExtData`.
-/

/-- Modelled from the spec: a candidate lexical meaning as produced by the
lexical database.  Translated from the `BIN_Meaning` namedtuple of
`src/bindb.py`: fields `stofn, utg, ordfl, fl, ordmynd, beyging`. -/
structure BIN_Meaning where
  stofn : String
  utg : Int
  ordfl : String
  fl : String
  ordmynd : String
  beyging : String
deriving DecidableEq, Repr

/-- Modelled from the spec: a token (spec section 3) with its lowercased text
(`.lower` in the code) and its ordered collection of candidate lexical
meanings (`.t2` in the code).  The token class itself is outside `src/`. -/
structure Token where
  lower : String
  t2 : List BIN_Meaning
deriving DecidableEq, Repr

/-- Modelled from the spec: a grammar terminal (spec section 3): a name that
may denote a literal/quoted match, a primary category (`first`), and the list
of morphological variant flags, queryable by name or ordinal position.
`grammar.Terminal` is not under `src/`. -/
structure Terminal where
  name : String
  first : String
  variants : List String
deriving DecidableEq, Repr

/-- Whether the first list is an initial segment of the second. -/
def pyStartsWith : List Char → List Char → Bool
  | [], _ => true
  | _ :: _, [] => false
  | a :: as, b :: bs => a == b && pyStartsWith as bs

/-- Whether `a` occurs as a contiguous sublist of `b`. -/
def pySubList (a : List Char) : List Char → Bool
  | [] => a.isEmpty
  | c :: bs => pyStartsWith a (c :: bs) || pySubList a bs

/-- Python's `a in b` on strings: substring containment (the empty string is
contained in every string).  Used by `reducer.py` for `t.variant(0) in "012"`
and `"MM" in m.beyging`. -/
def pyInStr (a b : String) : Bool :=
  pySubList a.data b.data

/-- Python's `int(...)` on a decimal-digit string; the scoring loop applies
it only to a variant already checked to be among "0", "1", "2" (on other
inputs Python would raise, a path the guard makes unreachable). -/
def pyToNat (s : String) : Nat :=
  s.data.foldl (fun n c => 10 * n + (c.toNat - 48)) 0

/-- `t.has_variant(v)`: whether the terminal carries variant flag `v`. -/
def Terminal.has_variant (t : Terminal) (v : String) : Bool :=
  t.variants.contains v

/-- `t.variant(i)`: the variant flag at ordinal position `i` (the source
would raise on an out-of-range index; scoring only reads positions that
exist, so the default is never significant there). -/
def Terminal.variant (t : Terminal) (i : Nat) : String :=
  t.variants.getD i ""

/-- `t.is_singular`: singular-number flag. -/
def Terminal.is_singular (t : Terminal) : Bool := t.has_variant "et"

/-- `t.is_plural`: plural-number flag. -/
def Terminal.is_plural (t : Terminal) : Bool := t.has_variant "ft"

/-- `t.is_abbrev`: abbreviation flag. -/
def Terminal.is_abbrev (t : Terminal) : Bool := t.has_variant "abbrev"

/-- `t.is_sagnb`: supine-form flag. -/
def Terminal.is_sagnb (t : Terminal) : Bool := t.has_variant "sagnb"

/-- `t.is_lh`: past-participle flag. -/
def Terminal.is_lh (t : Terminal) : Bool := t.has_variant "lhþt"

/-- `t.is_mm`: middle-voice flag. -/
def Terminal.is_mm (t : Terminal) : Bool := t.has_variant "mm"

/-- `t.is_vh`: subjunctive-mood flag. -/
def Terminal.is_vh (t : Terminal) : Bool := t.has_variant "vh"

/-- `t.is_subj`: grammatical-subject flag. -/
def Terminal.is_subj (t : Terminal) : Bool := t.has_variant "subj"

/-- `t.is_nh`: infinitive-form flag. -/
def Terminal.is_nh (t : Terminal) : Bool := t.has_variant "nh"

/-- Modelled from the spec: `t.verb_cases`, the case signature of a verb
terminal, used as the suffix of the key into the verb-case score table
(spec section 4.3: "per-stem-and-case-signature"). -/
def Terminal.verb_cases (t : Terminal) : String :=
  String.join ((t.variants.filter
    (fun v => v == "nf" || v == "þf" || v == "þgf" || v == "ef")).map
    (fun v => "_" ++ v))

/-- `t.name[0] in "\"'"`: whether the terminal is a literal/quoted one. -/
def Terminal.isLiteral (t : Terminal) : Bool :=
  t.name.front == '"' || t.name.front == '\''

/-- The external tables consumed by the reducer: `Preferences.get` (triples of
worse-category set, better-category set, factor), the zero-argument verb
stems `VerbObjects.VERBS[0]`, the verb-case score table
`VerbObjects.SCORES.get`, and the grammar nonterminal score adjustments
`grammar._nt_scores.get(nt, 0)` keyed here by nonterminal name. -/
structure ExtData where
  prefs : String → List (List String × List String × Int)
  verbsZero : List String
  verbScores : String → Option Int
  ntScores : String → Int

/-- A per-position score dictionary, keyed by terminal: the Python dict
`scores[i]` of `_calc_terminal_scores`, in insertion order. -/
abbrev RDict := List (Terminal × Int)

/-- First value stored under key `t`, if any (Python `d[t]` succeeds exactly
when this is `some`). -/
def dlookup (d : RDict) (t : Terminal) : Option Int :=
  match d with
  | [] => none
  | (u, v) :: rest => if u = t then some v else dlookup rest t

/-- `sc[t] += v`: add `v` to every entry stored under key `t`. -/
def dadd (d : RDict) (t : Terminal) (v : Int) : RDict :=
  d.map (fun p => if p.1 = t then (p.1, p.2 + v) else p)

/-- Apply a list of `(key, delta)` score updates in order. -/
def applyDeltas (d : RDict) (ds : List (Terminal × Int)) : RDict :=
  ds.foldl (fun acc p => dadd acc p.1 p.2) d

/-- The total delta a list of updates contributes to key `t`. -/
def dsum (t : Terminal) : List (Terminal × Int) → Int
  | [] => 0
  | p :: ds => (if p.1 = t then p.2 else 0) + dsum t ds

/-- Lines 221-226 of `reducer.py`: walk the keys of the score dict at
position `i - 1` and add `+2` to the first terminal of category `nhm`,
then stop. -/
def patchNhm (d : RDict) : RDict :=
  match d with
  | [] => []
  | (u, v) :: rest =>
      if u.first == "nhm" then (u, v + 2) :: rest else (u, v) :: patchNhm rest

/-- The pending-adjustment maps `adj_worse` and `adj_better` of
`_calc_terminal_scores` (lines 113-130), as total functions defaulting to 0
(the `defaultdict(int)` default).  The folds mirror the source loops: over
the preference triples, over `wt` in `s` with `wt.first` in the worse set,
over `bt` in `s` distinct from `wt` with `bt.first` in the better set;
`adj_worse[wt]` accumulates via `min`, `adj_better[bt]` via `max`, and a
literal/quoted `bt` is promoted by `+6*factor` instead of `+4*factor`. -/
def prefPair (wt bt : Terminal) (factor : Int) (better : List String)
    (ab : (Terminal → Int) × (Terminal → Int)) :
    (Terminal → Int) × (Terminal → Int) :=
  if wt != bt && better.contains bt.first then
    (fun u => if u = wt then min (ab.1 u) (-2 * factor) else ab.1 u,
     fun u => if u = bt
       then max (ab.2 u) (if bt.isLiteral then 6 * factor else 4 * factor)
       else ab.2 u)
  else ab

/-- The `for bt in s` loop (lines 119-130), for one `wt` whose category is
in the worse set. -/
def prefInner (bts : List Terminal) (wt : Terminal) (factor : Int)
    (better : List String) (ab : (Terminal → Int) × (Terminal → Int)) :
    (Terminal → Int) × (Terminal → Int) :=
  bts.foldl (fun ab bt => prefPair wt bt factor better ab) ab

/-- The `for wt in s` loop (lines 117-130) of one preference triple. -/
def prefOuter (s : List Terminal) (worse better : List String) (factor : Int)
    (ab : (Terminal → Int) × (Terminal → Int)) :
    (Terminal → Int) × (Terminal → Int) :=
  s.foldl (fun ab wt =>
    if worse.contains wt.first then prefInner s wt factor better ab else ab) ab

def prefAdjFuns (s : List Terminal)
    (prefs : List (List String × List String × Int)) :
    (Terminal → Int) × (Terminal → Int) :=
  prefs.foldl (fun ab pref => prefOuter s pref.1 pref.2.1 pref.2.2 ab)
    (fun _ => 0, fun _ => 0)

/-- Lines 131-136: add each accumulated adjustment to the score dict.  The
source walks `adj_worse.items()` then `adj_better.items()`; keys never
touched hold the default 0, so this equals adding both defaulted values to
every key of the dict. -/
def applyPrefs (sc : RDict) (s : List Terminal)
    (prefs : List (List String × List String × Int)) : RDict :=
  let ab := prefAdjFuns s prefs
  sc.map (fun p => (p.1, p.2 + ab.1 p.1 + ab.2 p.1))

/-- Generalization of `specPrefWorse` to an arbitrary starting value `a`. -/
def specPrefWorseFrom (s : List Terminal)
    (prefs : List (List String × List String × Int)) (t : Terminal)
    (a : Int) : Int :=
  prefs.foldl (fun acc pref =>
    if pref.1.contains t.first &&
        s.any (fun bt => t != bt && pref.2.1.contains bt.first)
    then min acc (-2 * pref.2.2) else acc) a

/-- Written from the spec's words (section 4.3 step 3), to be compared with
`prefAdjFuns`: the worse-side adjustment of terminal `t` accumulates
`min(current, -2*factor)` over all triples for which `t`'s category is in
the worse set and some other candidate's category is in the better set. -/
def specPrefWorse (s : List Terminal)
    (prefs : List (List String × List String × Int)) (t : Terminal) : Int :=
  specPrefWorseFrom s prefs t 0

/-- Generalization of `specPrefBetter` to an arbitrary starting value `a`. -/
def specPrefBetterFrom (s : List Terminal)
    (prefs : List (List String × List String × Int)) (t : Terminal)
    (a : Int) : Int :=
  prefs.foldl (fun acc pref =>
    if pref.2.1.contains t.first &&
        s.any (fun wt => wt != t && pref.1.contains wt.first)
    then max acc ((if t.isLiteral then 6 else 4) * pref.2.2) else acc) a

/-- Written from the spec's words (section 4.3 step 3), to be compared with
`prefAdjFuns`: the better-side adjustment of terminal `t` accumulates
`max(current, +6*factor)` (literal/quoted `t`) or `max(current, +4*factor)`
over all triples for which `t`'s category is in the better set and some
other candidate's category is in the worse set. -/
def specPrefBetter (s : List Terminal)
    (prefs : List (List String × List String × Int)) (t : Terminal) : Int :=
  specPrefBetterFrom s prefs t 0

/-- Lines 183-190 of `reducer.py`: walk the token's meanings in order and
return the verb-case score of the first verb meaning whose key
`stofn + verb_cases` is in the table, defaulting to 0 (the loop assigns
`adjmax` once and breaks). -/
def firstVerbScore (ext : ExtData) (ms : List BIN_Meaning) (vc : String) : Int :=
  match ms with
  | [] => 0
  | m :: rest =>
      if m.ordfl == "so" then
        match ext.verbScores (m.stofn ++ vc) with
        | some sc => sc
        | none => firstVerbScore ext rest vc
      else firstVerbScore ext rest vc

/-- Lines 167-191: the argument-count bonus (with the zero-argument penalty
of lines 173-178) plus the verb-case table adjustment. -/
def soArgDelta (ext : ExtData) (tok : Token) (t : Terminal) :
    List (Terminal × Int) :=
  if pyInStr (t.variant 0) "012" then
    let numcases : Nat := pyToNat (t.variant 0)
    let adj : Int :=
      if numcases == 0 &&
          tok.t2.all (fun m =>
            !(m.ordfl == "so") ||
              (!(ext.verbsZero.contains m.stofn) && !(pyInStr "MM" m.beyging)))
      then -5 else 2 * (numcases : Int)
    [(t, adj + firstVerbScore ext tok.t2 t.verb_cases)]
  else []

/-- Lines 192-209: the supine / past-participle / middle-voice /
subjunctive chain. -/
def soFormDelta (t : Terminal) : List (Terminal × Int) :=
  if t.is_sagnb then [(t, 6)]
  else if t.is_lh then (if t.has_variant "vb" then [(t, -2)] else [(t, 3)])
  else if t.is_mm then [(t, 3)]
  else if t.is_vh then [(t, 2)]
  else []

/-- Lines 210-216: the subject bonus / subj-none penalty. -/
def soSubjDelta (t : Terminal) : List (Terminal × Int) :=
  if t.is_subj then (if t.has_variant "none" then [(t, -3)] else [(t, 1)])
  else []

/-- Whether the infinitive block's `nhm` patch of position `i - 1` fires
(line 218's guard). -/
def soNhmFires (i : Nat) (prevS : List Terminal) (t : Terminal) : Bool :=
  t.is_nh && (0 < i && prevS.any (fun pt => pt.first == "nhm"))

/-- Lines 217-230: the infinitive block's deltas at position `i`: +4 next
to an infinitive marker, +4 next to a plural genitive noun alternative. -/
def soNhDelta (i : Nat) (s prevS : List Terminal) (t : Terminal) :
    List (Terminal × Int) :=
  if t.is_nh then
    (if soNhmFires i prevS t then [(t, 4)] else []) ++
      (if s.any (fun pt =>
          pt.first == "no" && pt.has_variant "ef" && pt.is_plural)
       then [(t, 4)] else [])
  else []

/-- The `elif tfirst == "so"` branch of the heuristics loop (lines 166-230):
argument-count bonus with the zero-argument penalty and the verb-case table
lookup, the supine / past-participle / middle-voice / subjunctive chain, the
subject bonus, and the infinitive block.  Returns the `(key, delta)` updates
for position `i` plus whether the `nhm` patch at `i - 1` fires. -/
def soDeltas (ext : ExtData) (i : Nat) (s prevS : List Terminal)
    (tok : Token) (t : Terminal) : List (Terminal × Int) × Bool :=
  (soArgDelta ext tok t ++ soFormDelta t ++ soSubjDelta t ++
    soNhDelta i s prevS t, soNhmFires i prevS t)

/-- Lines 236-238: one pass of the genitive-numeral inner loop, run once
per numeral-category terminal of the candidate set: every noun or `töl`
terminal of `s` carrying genitive case receives -1. -/
def numCrossDeltas (s : List Terminal) : List (Terminal × Int) :=
  s.filterMap (fun pt =>
    if (pt.first == "no" || pt.first == "töl") && pt.has_variant "ef"
    then some (pt, -1) else none)

/-- One iteration of the heuristics loop (`for t in s`, lines 142-260): the
`(key, delta)` updates applied to the score dict of position `i`, plus
whether the `nhm` patch of position `i - 1` (lines 221-226) fires.  The
branches follow the source's `elif` chain on `t.first`. -/
def heurDeltas (ext : ExtData) (wstart i : Nat) (s prevS : List Terminal)
    (tok : Token) (t : Terminal) : List (Terminal × Int) × Bool :=
  if t.first == "ao" || t.first == "eo" then ([(t, -1)], false)
  else if t.first == "no" then
    (if t.is_singular then [(t, 1)]
     else if t.is_abbrev then [(t, -1)] else [], false)
  else if t.first == "fs" then
    (if t.has_variant "nf" then [(t, -5)]
     else if tok.lower == "við" && t.has_variant "þgf" then [(t, 1)]
     else if tok.lower == "sem" && t.has_variant "þf" then [(t, -6)]
     else [(t, 2)], false)
  else if t.first == "so" then soDeltas ext i s prevS tok t
  else if t.first == "tala" || t.first == "töl" then
    ((if t.first == "tala" then [(t, -1)] else []) ++ numCrossDeltas s, false)
  else if t.first == "sérnafn" then
    (if tok.t2.isEmpty then [(t, 2)]
     else [(t, -6)] ++ (if i == wstart then [(t, -4)] else []), false)
  else if t.isLiteral then ([(t, 1)], false)
  else ([], false)

/-- Apply one heuristics iteration to the pair (dict at `i`, dict at `i-1`). -/
def heurStep (ext : ExtData) (wstart i : Nat) (s prevS : List Terminal)
    (tok : Token) (st : RDict × RDict) (t : Terminal) : RDict × RDict :=
  let dp := heurDeltas ext wstart i s prevS tok t
  (applyDeltas st.1 dp.1, if dp.2 then patchNhm st.2 else st.2)

/-- `len(set(terminal.first for terminal in s)) == 1` (line 106). -/
def sameFirst (s : List Terminal) : Bool :=
  ((s.map (fun t => t.first)).dedup).length == 1

/-- Modelled from the spec (sections 3 and 9): a packed parse-forest node is
one of epsilon, a token leaf (position, token, matched terminal), or a
nonterminal with its span `[start, stop)`, completion flag, nonterminal
name, and one or more families of children, each family carrying its
production's priority (`prod.priority`).  The forest is embedded as a tree;
the memoized walk of `fastparser.ParseForestNavigator` (spec section 4.1)
visits every node of the shared forest exactly once, which structural
recursion provides here. -/
inductive PNode where
  | eps : PNode
  | tok (start : Nat) (token : Token) (terminal : Terminal) : PNode
  | nt (start stop : Nat) (completed : Bool) (name : String)
      (fams : List (Int × List PNode)) : PNode

/-- `w.start`: a token node's position, a nonterminal node's span start. -/
def PNode.startPos : PNode → Nat
  | .eps => 0
  | .tok st _ _ => st
  | .nt st _ _ _ _ => st

/-- `w.end`: one past the last token position spanned by the node. -/
def PNode.endPos : PNode → Nat
  | .eps => 0
  | .tok st _ _ => st + 1
  | .nt _ en _ _ _ => en

mutual

/-- Modelled from the spec (sections 4.1 and 4.2): the option-finder walk.
`Reducer.OptionFinder._visit_token` records every token node's
`(start, token, terminal)`; this returns the visited triples in traversal
order (families in order, children of each family in order). -/
def nodeTokens : PNode → List (Nat × Token × Terminal)
  | .eps => []
  | .tok st tk t => [(st, tk, t)]
  | .nt _ _ _ _ fams => famsTokens fams

/-- Token triples of a list of families. -/
def famsTokens : List (Int × List PNode) → List (Nat × Token × Terminal)
  | [] => []
  | f :: rest => kidsTokens f.2 ++ famsTokens rest

/-- Token triples of a list of children. -/
def kidsTokens : List PNode → List (Nat × Token × Terminal)
  | [] => []
  | c :: rest => nodeTokens c ++ kidsTokens rest

end

/-- `finals[i]`: the set of terminals recorded at position `i`
(`self._finals[node.start].add(node.terminal)`, line 63), as a
duplicate-free list in first-insertion order. -/
def finalsOf (w : PNode) (i : Nat) : List Terminal :=
  (nodeTokens w).foldl
    (fun acc p =>
      if p.1 = i then (if p.2.2 ∈ acc then acc else acc ++ [p.2.2]) else acc)
    []

/-- `tokens[i]`: the token recorded at position `i`
(`self._tokens[node.start] = node.token`, line 64; a later visit
overwrites). -/
def tokensOf (w : PNode) (i : Nat) : Option Token :=
  (nodeTokens w).foldl (fun acc p => if p.1 = i then some p.2.1 else acc) none

/-- Stands in for the absent `tokens[i]` dict entry: the source reads
`tokens[i]` only after finding at least two terminals recorded at `i`, so
the entry exists in every reachable read. -/
def emptyToken : Token := ⟨"", []⟩

/-- The scores map built by `_calc_terminal_scores`: one entry per processed
position, in processing order. -/
abbrev ScoreMap := List (Nat × RDict)

/-- The dict stored for position `i`, if `i` has been processed. -/
def slookup (scores : ScoreMap) (i : Nat) : Option RDict :=
  match scores with
  | [] => none
  | (j, d) :: rest => if j = i then some d else slookup rest i

/-- Replace the dict stored for position `j`, when present. -/
def updateEntry (scores : ScoreMap) (j : Nat) (d : RDict) : ScoreMap :=
  scores.map (fun p => if p.1 = j then (p.1, d) else p)

/-- The body of the per-token loop of `Reducer._calc_terminal_scores`
(lines 91-260) for one position `i`: initialize every terminal of
`s = finals[i]` to 0, stop there if at most one candidate, otherwise apply
the preference adjustments (consulting the table only when the candidates
span more than one primary category, line 110) and run the heuristics loop.
Returns the dict for `i` together with the (possibly `nhm`-patched) dict of
position `i - 1`. -/
def scorePos (ext : ExtData) (wstart i : Nat) (s prevS : List Terminal)
    (tok : Token) (prev : RDict) : RDict × RDict :=
  let base : RDict := s.map (fun t => (t, 0))
  if s.length ≤ 1 then (base, prev)
  else
    let prefs := if sameFirst s then [] else ext.prefs tok.lower
    let sc1 := applyPrefs base s prefs
    s.foldl (heurStep ext wstart i s prevS tok) (sc1, prev)

/-- One iteration of `for i in range(w.start, w.end)`: score position `i`,
write back the possibly patched dict of position `i - 1`, and append the
new dict.  (On a malformed forest with a recorded `nhm` terminal below
`w.start` the source would raise a KeyError on `scores[i - 1]`; here the
write-back is a no-op in that unreachable case.) -/
def stepPos (ext : ExtData) (w : PNode) (scores : ScoreMap) (i : Nat) :
    ScoreMap :=
  let s := finalsOf w i
  let prevS := if i == 0 then [] else finalsOf w (i - 1)
  let tok := (tokensOf w i).getD emptyToken
  let prev := (slookup scores (i - 1)).getD []
  let r := scorePos ext w.startPos i s prevS tok prev
  updateEntry scores (i - 1) r.2 ++ [(i, r.1)]

/-- `Reducer._calc_terminal_scores` (lines 78-264): the option-finder pass
collects `finals` and `tokens`, then every position of `[w.start, w.end)`
is scored in order. -/
def calcScores (ext : ExtData) (w : PNode) : ScoreMap :=
  (List.range' w.startPos (w.endPos - w.startPos)).foldl (stepPos ext w) []

/-- The reducer's token-node lookup `self._scores[node.start][node.terminal]`
(line 318); `none` models the KeyError branch. -/
def scoreLookup (scores : ScoreMap) (i : Nat) (t : Terminal) : Option Int :=
  match slookup scores i with
  | none => none
  | some d => dlookup d t

/-- The priority state of `ReductionInfo` (lines 273-300): the best (lowest)
priority seen so far (`highest_prio`), whether differing priorities were
seen (`use_prio`), and the family indices achieving the best priority
(`highest_ix`, a set in the source, kept here in insertion order). -/
structure RInfo where
  highest_prio : Option Int
  use_prio : Bool
  highest_ix : List Nat

/-- `ReductionInfo.add_child_production` (lines 285-300) for a completed
nonterminal: note a priority difference, then either adopt a strictly
better (lower) priority with a fresh index set, extend the set on a tie, or
ignore a worse priority. -/
def addProd (r : RInfo) (ix : Nat) (prio : Int) : RInfo :=
  let use1 := r.use_prio ||
    (match r.highest_prio with
     | some hp => prio != hp
     | none => false)
  match r.highest_prio with
  | none => ⟨some prio, use1, [ix]⟩
  | some hp =>
      if prio < hp then ⟨some prio, use1, [ix]⟩
      else if prio == hp then ⟨some hp, use1, r.highest_ix ++ [ix]⟩
      else ⟨some hp, use1, r.highest_ix⟩

/-- Fold `add_child_production` over the family priorities, indices counting
from `ix0` (`_visit_family` supplies consecutive family indices). -/
def addProds (r : RInfo) (ix0 : Nat) (prios : List Int) : RInfo :=
  match prios with
  | [] => r
  | p :: rest => addProds (addProd r ix0 p) (ix0 + 1) rest

/-- The priority state accumulated for one node: `add_child_production`
returns immediately when the node is not a completed nonterminal
(`self.nt is None`, lines 287-289), leaving the initial state. -/
def mkRInfo (completed : Bool) (prios : List Int) : RInfo :=
  if completed then addProds ⟨none, false, []⟩ 0 prios else ⟨none, false, []⟩

/-- Pair each list element with its index, counting from `ix0`. -/
def enumF {α : Type} (ix0 : Nat) : List α → List (Nat × α)
  | [] => []
  | x :: xs => (ix0, x) :: enumF (ix0 + 1) xs

/-- The head of `sorted(csc.items(), key=lambda x: x[1], reverse=True)`
(lines 349-350): Python's sort is stable, so the head of the descending
sort is the first item carrying the maximal score, which is what this fold
returns. -/
def pickBest : List (Nat × Int) → Nat × Int
  | [] => (0, 0)
  | x :: xs => xs.foldl (fun b y => if y.2 > b.2 then y else b) x

/-- `_process_results` (lines 334-358) for one nonterminal node, taking
the already reduced families `rf` (priority, reduced children, summed
child score): accumulate the priority state, filter the per-family score
dict down to the best-priority indices when differing priorities were seen
(lines 337-341), keep all families and the single score on the unambiguous
fast path (lines 343-345), otherwise take the first best-scoring surviving
family and collapse the node to it (`node.reduce_to(ix)`, lines 347-351),
finally adding the grammar score adjustment of a completed nonterminal
(lines 352-355).  (On a nonterminal with no family the source would raise;
the defaults after `pickBest` are never reached on real forests.) -/
def processResults (ext : ExtData) (a b : Nat) (comp : Bool) (nm : String)
    (rf : List (Int × List PNode × Int)) : PNode × Int :=
  let rinfo := mkRInfo comp (rf.map (fun f => f.1))
  let csc := enumF 0 (rf.map (fun f => f.2.2))
  let csc1 := if rinfo.use_prio
    then csc.filter (fun p => rinfo.highest_ix.contains p.1) else csc
  let adj := if comp then ext.ntScores nm else 0
  if csc1.length == 1 && !rinfo.use_prio then
    (PNode.nt a b comp nm (rf.map (fun f => (f.1, f.2.1))),
      (csc1.headD (0, 0)).2 + adj)
  else
    let best := pickBest csc1
    let fam := (rf.get? best.1).getD (0, [], 0)
    (PNode.nt a b comp nm [(fam.1, fam.2.1)], best.2 + adj)

mutual

/-- `Reducer.ParseForestReducer` (lines 267-358) on the tree embedding.
Token nodes yield their recorded score; a nonterminal node reduces every
family's children, accumulates per-family summed scores (`add_child_score`)
and the priority state, and resolves the node via `processResults`. -/
def reduceNode (ext : ExtData) (scores : ScoreMap) : PNode → PNode × Int
  | .eps => (.eps, 0)
  | .tok st tk t => (.tok st tk t, (scoreLookup scores st t).getD 0)
  | .nt a b comp nm fams =>
      processResults ext a b comp nm (reduceFams ext scores fams)

/-- Reduce each family: its priority, reduced children, summed child score. -/
def reduceFams (ext : ExtData) (scores : ScoreMap) :
    List (Int × List PNode) → List (Int × List PNode × Int)
  | [] => []
  | f :: rest =>
      let rc := reduceKids ext scores f.2
      (f.1, rc.1, rc.2) :: reduceFams ext scores rest

/-- Reduce a family's children in order, summing their scores. -/
def reduceKids (ext : ExtData) (scores : ScoreMap) :
    List PNode → List PNode × Int
  | [] => ([], 0)
  | c :: rest =>
      let r := reduceNode ext scores c
      let rr := reduceKids ext scores rest
      (r.1 :: rr.1, r.2 + rr.2)

end

mutual

/-- Whether every nonterminal node of the forest has exactly one family. -/
def singleFam : PNode → Bool
  | .eps => true
  | .tok _ _ _ => true
  | .nt _ _ _ _ fams => fams.length == 1 && famsSingle fams

/-- `singleFam` over a list of families. -/
def famsSingle : List (Int × List PNode) → Bool
  | [] => true
  | f :: rest => kidsSingle f.2 && famsSingle rest

/-- `singleFam` over a list of children. -/
def kidsSingle : List PNode → Bool
  | [] => true
  | c :: rest => singleFam c && kidsSingle rest

end

mutual

/-- The sum, over every token leaf of the tree, of its recorded score, plus
the grammar score adjustment of every completed nonterminal node (the
right-hand side of the spec's no-ambiguity identity, section 8). -/
def leafAdjSum (ext : ExtData) (scores : ScoreMap) : PNode → Int
  | .eps => 0
  | .tok st _ t => (scoreLookup scores st t).getD 0
  | .nt _ _ comp nm fams =>
      famsLeafSum ext scores fams + (if comp then ext.ntScores nm else 0)

/-- `leafAdjSum` over a list of families. -/
def famsLeafSum (ext : ExtData) (scores : ScoreMap) :
    List (Int × List PNode) → Int
  | [] => 0
  | f :: rest => kidsLeafSum ext scores f.2 + famsLeafSum ext scores rest

/-- `leafAdjSum` over a list of children. -/
def kidsLeafSum (ext : ExtData) (scores : ScoreMap) : List PNode → Int
  | [] => 0
  | c :: rest => leafAdjSum ext scores c + kidsLeafSum ext scores rest

end

/-- `Reducer.go_with_score` (lines 366-374): `None` input short-circuits to
`(None, 0)` before the scorer or reducer run; otherwise compute the
terminal scores and reduce the forest bottom-up. -/
def go_with_score (ext : ExtData) (forest : Option PNode) :
    Option PNode × Int :=
  match forest with
  | none => (none, 0)
  | some w =>
      let scores := calcScores ext w
      let r := reduceNode ext scores w
      (some r.1, r.2)

/-- `Reducer.go` (lines 377-380): the reduced forest without its score. -/
def go (ext : ExtData) (forest : Option PNode) : Option PNode :=
  (go_with_score ext forest).1

/-- The total heuristic delta received by terminal `t` at one position: the
sum, over the loop iterations for the terminals of `l`, of the deltas each
iteration contributes to `t`'s dict entry. -/
def heurTot (ext : ExtData) (wstart i : Nat) (s prevS : List Terminal)
    (tok : Token) (t : Terminal) (l : List Terminal) : Int :=
  (l.map (fun u => dsum t (heurDeltas ext wstart i s prevS tok u).1)).sum

/-- How many iterations of the heuristics loop over `l` fire the `nhm`
patch of position `i - 1`. -/
def nhmFlags (ext : ExtData) (wstart i : Nat) (s prevS : List Terminal)
    (tok : Token) (l : List Terminal) : Nat :=
  (l.filter (fun u => (heurDeltas ext wstart i s prevS tok u).2)).length

/-- External tables with every table empty. -/
def extEmpty : ExtData := ⟨fun _ => [], [], fun _ => none, fun _ => 0⟩

/-- A verb meaning with stem `a` (concrete input for the verb-case claim). -/
def mSoA : BIN_Meaning := ⟨"a", 0, "so", "alm", "x", ""⟩

/-- A verb meaning with stem `b` (concrete input for the verb-case claim). -/
def mSoB : BIN_Meaning := ⟨"b", 0, "so", "alm", "x", ""⟩

/-- External tables whose verb-case score table maps `a_þf` to 1 and `b_þf`
to 5. -/
def extVerb : ExtData :=
  ⟨fun _ => [], [],
   fun k => if k = "a_þf" then some 1 else if k = "b_þf" then some 5 else none,
   fun _ => 0⟩

/-- The terminal `so_1_þf`: verb, one accusative argument. -/
def tSo1 : Terminal := ⟨"so_1_þf", "so", ["1", "þf"]⟩

/-- A filler terminal of an otherwise unscored category. -/
def tX : Terminal := ⟨"x", "x", []⟩

/-- A token with the two verb meanings `mSoA`, `mSoB`, in that order. -/
def tokAB : Token := ⟨"sá", [mSoA, mSoB]⟩

/-- The rough numeral terminal `tala`. -/
def tTala : Terminal := ⟨"tala", "tala", []⟩

/-- The specific numeral terminal `töl_ef`, carrying genitive case. -/
def tTolEf : Terminal := ⟨"töl_ef", "töl", ["ef"]⟩

/-- A numeral token with no stored meanings. -/
def tokNum : Token := ⟨"fjögurra", []⟩

/-- The adverb terminal `ao`. -/
def tAo : Terminal := ⟨"ao", "ao", []⟩

/-- The singular noun terminal `no_et`. -/
def tNo : Terminal := ⟨"no_et", "no", ["et"]⟩

/-- External tables with one preference triple for the word `ekki`:
noun worse, adverb better, factor 1. -/
def extPref : ExtData :=
  ⟨fun txt => if txt = "ekki" then [(["no"], ["ao"], 1)] else [],
   [], fun _ => none, fun _ => 0⟩

/-- The token `ekki` with no stored meanings. -/
def tokEkki : Token := ⟨"ekki", []⟩

/-- The proper-noun terminal `sérnafn`. -/
def tSer : Terminal := ⟨"sérnafn", "sérnafn", []⟩

/-- A capitalized-word token carrying one lexical meaning. -/
def tokJon : Token := ⟨"jón", [mSoA]⟩

/-- The infinitive verb terminal `so_nh`. -/
def tSoNh : Terminal := ⟨"so_nh", "so", ["nh"]⟩

/-- The infinitive-marker terminal `nhm`. -/
def tNhm : Terminal := ⟨"nhm", "nhm", []⟩

/-- An infinitive-verb token with no stored meanings. -/
def tokFara : Token := ⟨"fara", []⟩

/-- A token whose text matches the filler terminal. -/
def tokX : Token := ⟨"x", []⟩

/-- A single-family forest: one completed nonterminal over one token leaf. -/
def wSingle : PNode := PNode.nt 0 1 true "S" [(0, [PNode.tok 0 tokX tX])]

/-- A two-family completed nonterminal whose families carry priorities 0
and 1, the worse-priority family scoring higher. -/
def wPrio : PNode :=
  PNode.nt 0 1 true "S"
    [(1, [PNode.tok 0 tokX tX]), (0, [PNode.eps])]

/-- A concrete score map giving the leaf of `wPrio` a high score. -/
def scPrio : ScoreMap := [(0, [(tX, 100)])]

/-- A forest in which two families share the same token position and
terminal (the tree rendering of a shared subderivation). -/
def wShared : PNode :=
  PNode.nt 0 1 true "S"
    [(0, [PNode.tok 0 tokX tX]), (0, [PNode.tok 0 tokX tX])]

theorem dlookup_cons (a : Terminal) (b : Int) (rest : RDict) (u : Terminal) :
    dlookup ((a, b) :: rest) u = if a = u then some b else dlookup rest u := rfl

theorem dadd_cons (a : Terminal) (b : Int) (rest : RDict) (t : Terminal)
    (v : Int) :
    dadd ((a, b) :: rest) t v =
      (if a = t then (a, b + v) else (a, b)) :: dadd rest t v := by
  by_cases h : a = t <;> simp [dadd, h]

theorem dlookup_dadd (d : RDict) (t u : Terminal) (v : Int) :
    dlookup (dadd d t v) u =
      if u = t then Option.map (· + v) (dlookup d u) else dlookup d u := by
  induction d with
  | nil => by_cases h : u = t <;> simp [dlookup, dadd, h]
  | cons p rest ih =>
      obtain ⟨a, b⟩ := p
      rw [dadd_cons]
      by_cases h1 : a = t
      · rw [if_pos h1]
        rw [dlookup_cons, dlookup_cons]
        by_cases h2 : a = u
        · have hut : u = t := h2.symm.trans h1
          rw [if_pos h2, if_pos h2, if_pos hut]
          simp
        · rw [if_neg h2, if_neg h2, ih]
      · rw [if_neg h1]
        rw [dlookup_cons, dlookup_cons]
        by_cases h2 : a = u
        · have hut : ¬ (u = t) := fun hh => h1 (h2.trans hh)
          rw [if_pos h2, if_pos h2, if_neg hut]
        · rw [if_neg h2, if_neg h2, ih]

theorem dsum_cons (t : Terminal) (p : Terminal × Int)
    (ds : List (Terminal × Int)) :
    dsum t (p :: ds) = (if p.1 = t then p.2 else 0) + dsum t ds := rfl

theorem dlookup_applyDeltas (ds : List (Terminal × Int)) (d : RDict)
    (u : Terminal) :
    dlookup (applyDeltas d ds) u =
      Option.map (· + dsum u ds) (dlookup d u) := by
  induction ds generalizing d with
  | nil => cases h : dlookup d u <;> simp [applyDeltas, dsum, h]
  | cons p rest ih =>
      show dlookup (applyDeltas (dadd d p.1 p.2) rest) u = _
      rw [ih, dlookup_dadd]
      by_cases h : u = p.1
      · rw [if_pos h]
        cases hd : dlookup d u <;> simp [dsum_cons, h, hd] <;> ring
      · rw [if_neg h]
        have h1 : ¬ (p.1 = u) := fun hh => h hh.symm
        cases hd : dlookup d u <;> simp [dsum_cons, h1, hd]

theorem keys_dadd (d : RDict) (t : Terminal) (v : Int) :
    (dadd d t v).map Prod.fst = d.map Prod.fst := by
  induction d with
  | nil => rfl
  | cons p rest ih =>
      obtain ⟨a, b⟩ := p
      rw [dadd_cons]
      by_cases h : a = t <;> simp [h, ih]

theorem keys_applyDeltas (ds : List (Terminal × Int)) (d : RDict) :
    (applyDeltas d ds).map Prod.fst = d.map Prod.fst := by
  induction ds generalizing d with
  | nil => rfl
  | cons p rest ih =>
      show (applyDeltas (dadd d p.1 p.2) rest).map Prod.fst = _
      rw [ih, keys_dadd]

theorem keys_patchNhm (d : RDict) :
    (patchNhm d).map Prod.fst = d.map Prod.fst := by
  induction d with
  | nil => rfl
  | cons p rest ih =>
      obtain ⟨a, b⟩ := p
      show (if a.first == "nhm" then (a, b + 2) :: rest
        else (a, b) :: patchNhm rest).map Prod.fst = _
      by_cases h : a.first == "nhm" <;> simp [h, ih]

theorem keys_applyPrefs (sc : RDict) (s : List Terminal)
    (prefs : List (List String × List String × Int)) :
    (applyPrefs sc s prefs).map Prod.fst = sc.map Prod.fst := by
  simp [applyPrefs]

theorem dlookup_applyPrefs (sc : RDict) (s : List Terminal)
    (prefs : List (List String × List String × Int)) (u : Terminal) :
    dlookup (applyPrefs sc s prefs) u =
      Option.map
        (fun x => x + (prefAdjFuns s prefs).1 u + (prefAdjFuns s prefs).2 u)
        (dlookup sc u) := by
  induction sc with
  | nil => rfl
  | cons p rest ih =>
      obtain ⟨a, b⟩ := p
      show dlookup ((a, b + _ + _) :: applyPrefs rest s prefs) u = _
      rw [dlookup_cons, dlookup_cons]
      by_cases h : a = u
      · rw [if_pos h, if_pos h]
        subst h
        rfl
      · rw [if_neg h, if_neg h, ih]

theorem dlookup_base (s : List Terminal) (t : Terminal) (ht : t ∈ s) :
    dlookup (s.map (fun u => (u, (0 : Int)))) t = some 0 := by
  induction s with
  | nil => cases ht
  | cons a rest ih =>
      rw [List.map_cons, dlookup_cons]
      by_cases h : a = t
      · rw [if_pos h]
      · rw [if_neg h]
        rcases List.mem_cons.mp ht with h1 | h1
        · exact absurd h1.symm h
        · exact ih h1

theorem heurTot_cons (ext : ExtData) (wstart i : Nat)
    (s prevS : List Terminal) (tok : Token) (t u : Terminal)
    (l : List Terminal) :
    heurTot ext wstart i s prevS tok t (u :: l) =
      dsum t (heurDeltas ext wstart i s prevS tok u).1 +
        heurTot ext wstart i s prevS tok t l := by
  simp [heurTot]

theorem nhmFlags_cons (ext : ExtData) (wstart i : Nat)
    (s prevS : List Terminal) (tok : Token) (u : Terminal)
    (l : List Terminal) :
    nhmFlags ext wstart i s prevS tok (u :: l) =
      (if (heurDeltas ext wstart i s prevS tok u).2 then 1 else 0) +
        nhmFlags ext wstart i s prevS tok l := by
  by_cases h : (heurDeltas ext wstart i s prevS tok u).2 <;>
    simp [nhmFlags, h, Nat.add_comm]

theorem heurFold_fst (ext : ExtData) (wstart i : Nat)
    (s prevS : List Terminal) (tok : Token) (t : Terminal)
    (l : List Terminal) (sc prev : RDict) :
    dlookup ((l.foldl (heurStep ext wstart i s prevS tok) (sc, prev)).1) t =
      Option.map (· + heurTot ext wstart i s prevS tok t l)
        (dlookup sc t) := by
  induction l generalizing sc prev with
  | nil => cases h : dlookup sc t <;> simp [heurTot, h]
  | cons u l ih =>
      rw [List.foldl_cons]
      show dlookup ((l.foldl _ (applyDeltas sc _, _)).1) t = _
      rw [ih, dlookup_applyDeltas, heurTot_cons]
      cases h : dlookup sc t <;> simp [h] <;> ring

theorem heurFold_snd (ext : ExtData) (wstart i : Nat)
    (s prevS : List Terminal) (tok : Token)
    (l : List Terminal) (sc prev : RDict) :
    (l.foldl (heurStep ext wstart i s prevS tok) (sc, prev)).2 =
      patchNhm^[nhmFlags ext wstart i s prevS tok l] prev := by
  induction l generalizing sc prev with
  | nil => simp [nhmFlags]
  | cons u l ih =>
      rw [List.foldl_cons]
      show (l.foldl _ (applyDeltas sc _,
        if (heurDeltas ext wstart i s prevS tok u).2
        then patchNhm prev else prev)).2 = _
      rw [ih, nhmFlags_cons]
      by_cases h : (heurDeltas ext wstart i s prevS tok u).2 <;>
        simp [h, Nat.add_comm 1, Function.iterate_succ_apply]

theorem scorePos_low (ext : ExtData) (wstart i : Nat)
    (s prevS : List Terminal) (tok : Token) (prev : RDict)
    (h : s.length ≤ 1) :
    scorePos ext wstart i s prevS tok prev =
      (s.map (fun t => (t, 0)), prev) := by
  simp [scorePos, h]

theorem scorePos_fst (ext : ExtData) (wstart i : Nat)
    (s prevS : List Terminal) (tok : Token) (prev : RDict) (t : Terminal)
    (h : 1 < s.length) (ht : t ∈ s) :
    dlookup (scorePos ext wstart i s prevS tok prev).1 t =
      some
        ((prefAdjFuns s (if sameFirst s then [] else ext.prefs tok.lower)).1 t
          + (prefAdjFuns s (if sameFirst s then [] else ext.prefs tok.lower)).2 t
          + heurTot ext wstart i s prevS tok t s) := by
  have h1 : ¬ (s.length ≤ 1) := by omega
  rw [scorePos]
  simp only [h1, if_false]
  rw [heurFold_fst, dlookup_applyPrefs, dlookup_base s t ht]
  simp [add_assoc]

theorem scorePos_snd (ext : ExtData) (wstart i : Nat)
    (s prevS : List Terminal) (tok : Token) (prev : RDict)
    (h : 1 < s.length) :
    (scorePos ext wstart i s prevS tok prev).2 =
      patchNhm^[nhmFlags ext wstart i s prevS tok s] prev := by
  have h1 : ¬ (s.length ≤ 1) := by omega
  rw [scorePos]
  simp only [h1, if_false]
  rw [heurFold_snd]

theorem prefPair_fst (wt bt : Terminal) (factor : Int) (better : List String)
    (ab : (Terminal → Int) × (Terminal → Int)) (u : Terminal) :
    (prefPair wt bt factor better ab).1 u =
      if u = wt ∧ (wt != bt && better.contains bt.first) = true
      then min (ab.1 u) (-2 * factor) else ab.1 u := by
  simp only [prefPair]
  split_ifs <;> simp_all

theorem prefPair_snd (wt bt : Terminal) (factor : Int) (better : List String)
    (ab : (Terminal → Int) × (Terminal → Int)) (u : Terminal) :
    (prefPair wt bt factor better ab).2 u =
      if u = bt ∧ (wt != bt && better.contains bt.first) = true
      then max (ab.2 u) (if u.isLiteral then 6 * factor else 4 * factor)
      else ab.2 u := by
  simp only [prefPair]
  split_ifs <;> simp_all

theorem prefInner_fst (bts : List Terminal) (wt : Terminal) (factor : Int)
    (better : List String) (ab : (Terminal → Int) × (Terminal → Int))
    (u : Terminal) :
    (prefInner bts wt factor better ab).1 u =
      if u = wt ∧ bts.any (fun bt => wt != bt && better.contains bt.first) = true
      then min (ab.1 u) (-2 * factor) else ab.1 u := by
  induction bts generalizing ab with
  | nil => simp [prefInner]
  | cons bt bts ih =>
      show (prefInner bts wt factor better (prefPair wt bt factor better ab)).1 u = _
      rw [ih, prefPair_fst]
      by_cases hu : u = wt
      · subst hu
        cases h1 : (u != bt && better.contains bt.first) <;>
          cases h2 : bts.any (fun bt => u != bt && better.contains bt.first) <;>
          simp_all [min_assoc]
        rw [if_neg]
        rintro (⟨hne, hmem⟩ | ⟨x, hx, hne, hmem⟩)
        · exact h1 hne hmem
        · exact h2 x hx hne hmem
      · simp [hu]

theorem prefInner_snd (bts : List Terminal) (wt : Terminal) (factor : Int)
    (better : List String) (ab : (Terminal → Int) × (Terminal → Int))
    (u : Terminal) :
    (prefInner bts wt factor better ab).2 u =
      if (wt != u && better.contains u.first) = true ∧ u ∈ bts
      then max (ab.2 u) (if u.isLiteral then 6 * factor else 4 * factor)
      else ab.2 u := by
  induction bts generalizing ab with
  | nil => simp [prefInner]
  | cons bt bts ih =>
      show (prefInner bts wt factor better (prefPair wt bt factor better ab)).2 u = _
      rw [ih, prefPair_snd]
      by_cases hu : u = bt
      · subst hu
        cases h1 : (wt != u && better.contains u.first) <;>
          cases h2 : decide (u ∈ bts) <;>
          simp_all [max_assoc, List.mem_cons]
      · cases h1 : (wt != u && better.contains u.first) <;>
          cases h2 : decide (u ∈ bts) <;>
          simp_all [List.mem_cons, hu]

theorem prefOuterAux_fst (s : List Terminal) (worse better : List String)
    (factor : Int) (l1 : List Terminal)
    (ab : (Terminal → Int) × (Terminal → Int)) (u : Terminal) :
    (l1.foldl (fun ab wt =>
        if worse.contains wt.first then prefInner s wt factor better ab else ab)
      ab).1 u =
      if u ∈ l1 ∧ worse.contains u.first = true ∧
          s.any (fun bt => u != bt && better.contains bt.first) = true
      then min (ab.1 u) (-2 * factor) else ab.1 u := by
  induction l1 generalizing ab with
  | nil => simp
  | cons wt l1 ih =>
      rw [List.foldl_cons, ih]
      by_cases hu : u = wt
      · subst hu
        by_cases hw : worse.contains u.first
        · rw [if_pos hw, prefInner_fst]
          cases h3 : s.any (fun bt => u != bt && better.contains bt.first) <;>
            by_cases h4 : u ∈ l1 <;> simp_all [min_assoc]
        · rw [if_neg hw]
          simp_all
      · by_cases hw : worse.contains wt.first
        · rw [if_pos hw, prefInner_fst]
          simp [hu, List.mem_cons]
        · rw [if_neg hw]
          simp [hu, List.mem_cons]

theorem prefOuterAux_snd (s : List Terminal) (worse better : List String)
    (factor : Int) (l1 : List Terminal)
    (ab : (Terminal → Int) × (Terminal → Int)) (u : Terminal) :
    (l1.foldl (fun ab wt =>
        if worse.contains wt.first then prefInner s wt factor better ab else ab)
      ab).2 u =
      if (better.contains u.first = true ∧ u ∈ s) ∧
          l1.any (fun wt => wt != u && worse.contains wt.first) = true
      then max (ab.2 u) (if u.isLiteral then 6 * factor else 4 * factor)
      else ab.2 u := by
  induction l1 generalizing ab with
  | nil => simp
  | cons wt l1 ih =>
      rw [List.foldl_cons, ih]
      by_cases hw : worse.contains wt.first
      · rw [if_pos hw, prefInner_snd]
        by_cases hb : better.contains u.first
        · by_cases hne : wt != u
          · by_cases hs : u ∈ s <;>
              cases h4 : l1.any (fun wt => wt != u && worse.contains wt.first) <;>
                simp_all [max_assoc]
          · by_cases hs : u ∈ s <;>
              cases h4 : l1.any (fun wt => wt != u && worse.contains wt.first) <;>
                simp_all [max_assoc]
            rw [if_neg]
            rintro ⟨x, hx, hxu, hxw⟩
            exact h4 x hx hxu hxw
        · simp_all
      · rw [if_neg hw]
        cases h4 : l1.any (fun wt => wt != u && worse.contains wt.first) <;>
          simp_all
        rw [if_neg]
        rintro ⟨-, x, hx, hxu, hxw⟩
        exact h4 x hx hxu hxw

theorem specPrefWorseFrom_cons (s : List Terminal)
    (pref : List String × List String × Int)
    (prefs : List (List String × List String × Int)) (t : Terminal)
    (a : Int) :
    specPrefWorseFrom s (pref :: prefs) t a =
      specPrefWorseFrom s prefs t
        (if pref.1.contains t.first &&
            s.any (fun bt => t != bt && pref.2.1.contains bt.first)
         then min a (-2 * pref.2.2) else a) := rfl

theorem specPrefBetterFrom_cons (s : List Terminal)
    (pref : List String × List String × Int)
    (prefs : List (List String × List String × Int)) (t : Terminal)
    (a : Int) :
    specPrefBetterFrom s (pref :: prefs) t a =
      specPrefBetterFrom s prefs t
        (if pref.2.1.contains t.first &&
            s.any (fun wt => wt != t && pref.1.contains wt.first)
         then max a ((if t.isLiteral then 6 else 4) * pref.2.2) else a) := rfl

theorem prefTriples_fst (s : List Terminal)
    (prefs : List (List String × List String × Int))
    (ab : (Terminal → Int) × (Terminal → Int)) (u : Terminal) (hu : u ∈ s) :
    ((prefs.foldl (fun ab pref => prefOuter s pref.1 pref.2.1 pref.2.2 ab)
      ab).1) u = specPrefWorseFrom s prefs u (ab.1 u) := by
  induction prefs generalizing ab with
  | nil => rfl
  | cons pref prefs ih =>
      rw [List.foldl_cons, ih, specPrefWorseFrom_cons]
      congr 1
      rw [prefOuter, prefOuterAux_fst]
      cases hc1 : pref.1.contains u.first <;>
        cases hc2 : s.any (fun bt => u != bt && pref.2.1.contains bt.first) <;>
        simp_all

theorem prefTriples_snd (s : List Terminal)
    (prefs : List (List String × List String × Int))
    (ab : (Terminal → Int) × (Terminal → Int)) (u : Terminal) (hu : u ∈ s) :
    ((prefs.foldl (fun ab pref => prefOuter s pref.1 pref.2.1 pref.2.2 ab)
      ab).2) u = specPrefBetterFrom s prefs u (ab.2 u) := by
  induction prefs generalizing ab with
  | nil => rfl
  | cons pref prefs ih =>
      rw [List.foldl_cons, ih, specPrefBetterFrom_cons]
      congr 1
      rw [prefOuter, prefOuterAux_snd]
      cases hc1 : pref.2.1.contains u.first <;>
        cases hc2 : s.any (fun wt => wt != u && pref.1.contains wt.first) <;>
        simp_all [mul_comm]

theorem prefAdjFuns_fst_spec (s : List Terminal)
    (prefs : List (List String × List String × Int)) (u : Terminal)
    (hu : u ∈ s) :
    (prefAdjFuns s prefs).1 u = specPrefWorse s prefs u := by
  rw [prefAdjFuns, specPrefWorse, prefTriples_fst s prefs _ u hu]

theorem prefAdjFuns_snd_spec (s : List Terminal)
    (prefs : List (List String × List String × Int)) (u : Terminal)
    (hu : u ∈ s) :
    (prefAdjFuns s prefs).2 u = specPrefBetter s prefs u := by
  rw [prefAdjFuns, specPrefBetter, prefTriples_snd s prefs _ u hu]

theorem firstVerbScore_congr (e1 e2 : ExtData)
    (h : e1.verbScores = e2.verbScores) (ms : List BIN_Meaning)
    (vc : String) : firstVerbScore e1 ms vc = firstVerbScore e2 ms vc := by
  induction ms with
  | nil => rfl
  | cons m ms ih => simp [firstVerbScore, h, ih]

theorem soDeltas_congr (e1 e2 : ExtData) (h1 : e1.verbsZero = e2.verbsZero)
    (h2 : e1.verbScores = e2.verbScores) (i : Nat) (s prevS : List Terminal)
    (tok : Token) (t : Terminal) :
    soDeltas e1 i s prevS tok t = soDeltas e2 i s prevS tok t := by
  simp only [soDeltas, soArgDelta, h1, firstVerbScore_congr e1 e2 h2]

theorem heurDeltas_congr (e1 e2 : ExtData) (h1 : e1.verbsZero = e2.verbsZero)
    (h2 : e1.verbScores = e2.verbScores) (wstart i : Nat)
    (s prevS : List Terminal) (tok : Token) (t : Terminal) :
    heurDeltas e1 wstart i s prevS tok t =
      heurDeltas e2 wstart i s prevS tok t := by
  simp only [heurDeltas, soDeltas_congr e1 e2 h1 h2]

theorem heurTot_congr (e1 e2 : ExtData) (h1 : e1.verbsZero = e2.verbsZero)
    (h2 : e1.verbScores = e2.verbScores) (wstart i : Nat)
    (s prevS : List Terminal) (tok : Token) (t : Terminal)
    (l : List Terminal) :
    heurTot e1 wstart i s prevS tok t l =
      heurTot e2 wstart i s prevS tok t l := by
  simp only [heurTot, heurDeltas_congr e1 e2 h1 h2]

theorem nhmFlags_congr (e1 e2 : ExtData) (h1 : e1.verbsZero = e2.verbsZero)
    (h2 : e1.verbScores = e2.verbScores) (wstart i : Nat)
    (s prevS : List Terminal) (tok : Token) (l : List Terminal) :
    nhmFlags e1 wstart i s prevS tok l =
      nhmFlags e2 wstart i s prevS tok l := by
  simp only [nhmFlags, heurDeltas_congr e1 e2 h1 h2]

theorem sameFirst_singleton (a : Terminal) : sameFirst [a] = true := by
  simp [sameFirst]

/-- C8: for an absent (`None`) forest, `go_with_score` returns `(None, 0)`
and `go` returns `None`, by the early return on line 368-369, before the
option finder, terminal scorer (`_calc_terminal_scores`) or forest reducer
(`_reduce`) are invoked; no error is raised on this path. -/
theorem claimC8_absent_forest (ext : ExtData) :
    go_with_score ext none = (none, 0) ∧ go ext none = none :=
  ⟨rfl, rfl⟩

/-- C3: the code at lines 183-190 contradicts its own comment (lines
181-182, "apply the most positive adjustment") and the spec: for the token
`tokAB`, whose verb meanings have stems `a` (score 1) and `b` (score 5)
under case signature `_þf`, the loop takes the FIRST table hit, 1, not the
maximum, 5, so the terminal `so_1_þf` scores 2 + 1 = 3 instead of the
specified 2 + 5 = 7. -/
theorem claimC3_verb_case_first_hit :
    firstVerbScore extVerb tokAB.t2 tSo1.verb_cases = 1 ∧
      dlookup (scorePos extVerb 0 0 [tSo1, tX] [] tokAB []).1 tSo1 =
        some 3 ∧ some (3 : Int) ≠ some 7 := by
  refine ⟨by decide, by decide, by decide⟩

/-- C4 counterexample: at a position whose candidate set holds the two
numeral-category terminals `tala` and `töl_ef`, the genitive numeral
terminal receives -2 (one -1 per numeral-category trigger of the inner loop
at lines 236-238), not the claimed total of exactly -1. -/
theorem claimC4_counterexample :
    dlookup (scorePos extEmpty 0 0 [tTala, tTolEf] [] tokNum []).1 tTolEf =
      some (-2) ∧ some (-2 : Int) ≠ some (-1) := by
  refine ⟨by decide, by decide⟩

/-- C5: the preference table's total contribution to a candidate terminal's
score.  When all candidates share one primary category the table is never
consulted (line 110) and the score equals the score computed with an empty
preference table; otherwise the final score exceeds that baseline by
exactly the min-accumulated worse-side adjustment plus the max-accumulated
better-side adjustment of the spec's step 3 (`specPrefWorse`,
`specPrefBetter`, with the 6-vs-4 literal distinction), added once.  The
dict handed back for position `i - 1` never depends on the table. -/
theorem claimC5_preference_contribution (ext : ExtData) (wstart i : Nat)
    (s prevS : List Terminal) (tok : Token) (prev : RDict) (t : Terminal)
    (ht : t ∈ s) :
    (dlookup (scorePos ext wstart i s prevS tok prev).1 t).getD 0 =
      (dlookup (scorePos ⟨fun _ => [], ext.verbsZero, ext.verbScores,
          ext.ntScores⟩ wstart i s prevS tok prev).1 t).getD 0 +
        (if sameFirst s then 0
         else specPrefWorse s (ext.prefs tok.lower) t +
           specPrefBetter s (ext.prefs tok.lower) t) ∧
    (scorePos ext wstart i s prevS tok prev).2 =
      (scorePos ⟨fun _ => [], ext.verbsZero, ext.verbScores,
        ext.ntScores⟩ wstart i s prevS tok prev).2 := by
  set extNP : ExtData :=
    ⟨fun _ => [], ext.verbsZero, ext.verbScores, ext.ntScores⟩ with hNP
  by_cases hlen : s.length ≤ 1
  · have hs : s = [t] := by
      match s, ht with
      | [a], hm =>
          rcases List.mem_singleton.mp hm with rfl
          rfl
      | a :: b :: l, hm => simp at hlen
    subst hs
    rw [scorePos_low _ _ _ _ _ _ _ hlen, scorePos_low _ _ _ _ _ _ _ hlen]
    refine ⟨?_, rfl⟩
    rw [sameFirst_singleton, if_pos rfl]
    simp
  · have hlen1 : 1 < s.length := by omega
    constructor
    · rw [scorePos_fst _ _ _ _ _ _ _ _ hlen1 ht,
        scorePos_fst _ _ _ _ _ _ _ _ hlen1 ht]
      have hnp : extNP.prefs tok.lower = [] := rfl
      have hz : extNP.verbsZero = ext.verbsZero := rfl
      have hv : extNP.verbScores = ext.verbScores := rfl
      rw [hnp]
      have hiftriv : (if sameFirst s then [] else ([] :
          List (List String × List String × Int))) = [] := by
        split <;> rfl
      rw [hiftriv]
      rw [heurTot_congr extNP ext hz hv]
      by_cases hsf : sameFirst s
      · rw [if_pos hsf, if_pos hsf]
        simp [prefAdjFuns]
      · rw [if_neg hsf, if_neg hsf]
        rw [prefAdjFuns_fst_spec s _ t ht, prefAdjFuns_snd_spec s _ t ht]
        simp [prefAdjFuns]
        ring
    · rw [scorePos_snd _ _ _ _ _ _ _ hlen1, scorePos_snd _ _ _ _ _ _ _ hlen1]
      rw [nhmFlags_congr extNP ext rfl rfl]

/-- Witness for C5 at a concrete input: the token `ekki` with candidates
adverb and noun and one preference triple (noun worse, adverb better,
factor 1). -/
theorem claimC5_preference_contribution_witness :
    tAo ∈ [tAo, tNo] ∧
    ((dlookup (scorePos extPref 0 0 [tAo, tNo] [] tokEkki []).1 tAo).getD 0 =
      (dlookup (scorePos ⟨fun _ => [], extPref.verbsZero, extPref.verbScores,
          extPref.ntScores⟩ 0 0 [tAo, tNo] [] tokEkki []).1 tAo).getD 0 +
        (if sameFirst [tAo, tNo] then 0
         else specPrefWorse [tAo, tNo] (extPref.prefs tokEkki.lower) tAo +
           specPrefBetter [tAo, tNo] (extPref.prefs tokEkki.lower) tAo) ∧
    (scorePos extPref 0 0 [tAo, tNo] [] tokEkki []).2 =
      (scorePos ⟨fun _ => [], extPref.verbsZero, extPref.verbScores,
        extPref.ntScores⟩ 0 0 [tAo, tNo] [] tokEkki []).2) :=
  ⟨by decide,
   claimC5_preference_contribution extPref 0 0 [tAo, tNo] [] tokEkki [] tAo
     (by decide)⟩

theorem dsum_zero (t : Terminal) (ds : List (Terminal × Int))
    (h : ∀ p ∈ ds, p.1 ≠ t) : dsum t ds = 0 := by
  induction ds with
  | nil => rfl
  | cons p rest ih =>
      rw [dsum_cons, if_neg (h p (List.mem_cons_self p rest)), ih, zero_add]
      exact fun q hq => h q (List.mem_cons_of_mem p hq)


theorem soArgDelta_mem (ext : ExtData) (tok : Token) (t : Terminal)
    (p : Terminal × Int) (hp : p ∈ soArgDelta ext tok t) : p.1 = t := by
  rw [soArgDelta] at hp
  split at hp
  · rw [List.mem_singleton] at hp
    rw [hp]
  · cases hp

theorem soFormDelta_mem (t : Terminal) (p : Terminal × Int)
    (hp : p ∈ soFormDelta t) : p.1 = t := by
  rw [soFormDelta] at hp
  split_ifs at hp <;> simp_all

theorem soSubjDelta_mem (t : Terminal) (p : Terminal × Int)
    (hp : p ∈ soSubjDelta t) : p.1 = t := by
  rw [soSubjDelta] at hp
  split_ifs at hp <;> simp_all

theorem soNhDelta_mem (i : Nat) (s prevS : List Terminal) (t : Terminal)
    (p : Terminal × Int) (hp : p ∈ soNhDelta i s prevS t) : p.1 = t := by
  rw [soNhDelta] at hp
  split_ifs at hp <;> simp_all [List.mem_append]

theorem soDeltas_mem (ext : ExtData) (i : Nat) (s prevS : List Terminal)
    (tok : Token) (t : Terminal) (p : Terminal × Int)
    (hp : p ∈ (soDeltas ext i s prevS tok t).1) : p.1 = t := by
  rw [soDeltas] at hp
  rcases List.mem_append.mp hp with h | h
  · rcases List.mem_append.mp h with h | h
    · rcases List.mem_append.mp h with h | h
      · exact soArgDelta_mem ext tok t p h
      · exact soFormDelta_mem t p h
    · exact soSubjDelta_mem t p h
  · exact soNhDelta_mem i s prevS t p h

theorem numCrossDeltas_mem (s : List Terminal) (p : Terminal × Int)
    (hp : p ∈ numCrossDeltas s) :
    ((p.1.first == "no" || p.1.first == "töl") &&
      p.1.has_variant "ef") = true ∧ p.1 ∈ s := by
  rcases List.mem_filterMap.mp hp with ⟨pt, hpt, hsome⟩
  split_ifs at hsome with hq
  rcases Option.some_inj.mp hsome with rfl
  exact ⟨hq, hpt⟩

theorem heurDeltas_mem (ext : ExtData) (wstart i : Nat)
    (s prevS : List Terminal) (tok : Token) (u : Terminal)
    (p : Terminal × Int)
    (hp : p ∈ (heurDeltas ext wstart i s prevS tok u).1) :
    p.1 = u ∨
      ((u.first == "tala" || u.first == "töl") = true ∧
        ((p.1.first == "no" || p.1.first == "töl") &&
          p.1.has_variant "ef") = true ∧ p.1 ∈ s) := by
  rw [heurDeltas] at hp
  split_ifs at hp <;>
    first
      | exact Or.inl (soDeltas_mem ext i s prevS tok u p hp)
      | (rcases List.mem_append.mp hp with h | h
         · left
           simp_all
         · exact Or.inr ⟨by simp_all, (numCrossDeltas_mem s p h).1,
             (numCrossDeltas_mem s p h).2⟩)
      | (left
         rcases List.mem_append.mp hp with h | h <;> simp_all)
      | simp_all

theorem heur_cross_zero (ext : ExtData) (wstart i : Nat)
    (s prevS : List Terminal) (tok : Token) (u t : Terminal)
    (hne : u ≠ t)
    (hnt : ((t.first == "no" || t.first == "töl") &&
      t.has_variant "ef") = false) :
    dsum t (heurDeltas ext wstart i s prevS tok u).1 = 0 := by
  apply dsum_zero
  intro p hp
  rcases heurDeltas_mem ext wstart i s prevS tok u p hp with h | ⟨-, hq, -⟩
  · exact fun hh => hne (h ▸ hh ▸ rfl)
  · intro hh
    rw [hh] at hq
    rw [hq] at hnt
    cases hnt

theorem heurTot_zero (ext : ExtData) (wstart i : Nat)
    (s prevS : List Terminal) (tok : Token) (t : Terminal)
    (l : List Terminal)
    (h : ∀ u ∈ l, dsum t (heurDeltas ext wstart i s prevS tok u).1 = 0) :
    heurTot ext wstart i s prevS tok t l = 0 := by
  induction l with
  | nil => rfl
  | cons u l ih =>
      rw [heurTot_cons, h u (List.mem_cons_self u l), zero_add]
      exact ih (fun v hv => h v (List.mem_cons_of_mem u hv))

theorem heurTot_single (ext : ExtData) (wstart i : Nat)
    (s prevS : List Terminal) (tok : Token) (t : Terminal)
    (l : List Terminal) (hnd : l.Nodup) (ht : t ∈ l)
    (hcross : ∀ u ∈ l, u ≠ t →
      dsum t (heurDeltas ext wstart i s prevS tok u).1 = 0) :
    heurTot ext wstart i s prevS tok t l =
      dsum t (heurDeltas ext wstart i s prevS tok t).1 := by
  induction l with
  | nil => cases ht
  | cons u l ih =>
      rw [heurTot_cons]
      by_cases hu : u = t
      · subst hu
        have hnotin : u ∉ l := (List.nodup_cons.mp hnd).1
        rw [heurTot_zero]
        · ring
        · intro v hv
          exact hcross v (List.mem_cons_of_mem u hv)
            (fun hveq => hnotin (hveq ▸ hv))
      · rw [hcross u (List.mem_cons_self u l) hu, zero_add]
        rcases List.mem_cons.mp ht with h | h
        · exact absurd h.symm hu
        · exact ih (List.nodup_cons.mp hnd).2 h
            (fun v hv hvt => hcross v (List.mem_cons_of_mem u hv) hvt)

theorem dsum_append (t : Terminal) (a b : List (Terminal × Int)) :
    dsum t (a ++ b) = dsum t a + dsum t b := by
  induction a with
  | nil => simp [dsum]
  | cons p rest ih => simp [dsum_cons, ih, add_assoc]

theorem heurDeltas_numeral (ext : ExtData) (wstart i : Nat)
    (s prevS : List Terminal) (tok : Token) (u : Terminal)
    (hnum : (u.first == "tala" || u.first == "töl") = true) :
    heurDeltas ext wstart i s prevS tok u =
      ((if u.first == "tala" then [(u, -1)] else []) ++ numCrossDeltas s,
        false) := by
  rcases Bool.or_eq_true_iff.mp hnum with h | h
  · have hf : u.first = "tala" := by simpa using h
    simp [heurDeltas, hf]
  · have hf : u.first = "töl" := by simpa using h
    simp [heurDeltas, hf]

theorem dsum_heur_other (ext : ExtData) (wstart i : Nat)
    (s prevS : List Terminal) (tok : Token) (u t : Terminal) (hne : u ≠ t) :
    dsum t (heurDeltas ext wstart i s prevS tok u).1 =
      if (u.first == "tala" || u.first == "töl") = true
      then dsum t (numCrossDeltas s) else 0 := by
  by_cases hnum : (u.first == "tala" || u.first == "töl") = true
  · rw [if_pos hnum, heurDeltas_numeral ext wstart i s prevS tok u hnum]
    show dsum t (_ ++ numCrossDeltas s) = _
    rw [dsum_append]
    have h0 : dsum t (if u.first == "tala" then [(u, -1)] else []) = 0 := by
      split <;> simp [dsum, hne]
    rw [h0, zero_add]
  · rw [if_neg hnum]
    apply dsum_zero
    intro p hp
    rcases heurDeltas_mem ext wstart i s prevS tok u p hp with h | ⟨hn, -, -⟩
    · exact fun hh => hne (h ▸ hh ▸ rfl)
    · exact absurd hn hnum

theorem heurTot_count (ext : ExtData) (wstart i : Nat)
    (s prevS : List Terminal) (tok : Token) (t : Terminal)
    (l : List Terminal) (c : Int)
    (h : ∀ u ∈ l, dsum t (heurDeltas ext wstart i s prevS tok u).1 =
      if (u.first == "tala" || u.first == "töl") = true then c else 0) :
    heurTot ext wstart i s prevS tok t l =
      ((l.filter (fun u => u.first == "tala" || u.first == "töl")).length
        : Int) * c := by
  induction l with
  | nil => simp [heurTot]
  | cons u l ih =>
      rw [heurTot_cons, h u (List.mem_cons_self u l)]
      rw [ih (fun v hv => h v (List.mem_cons_of_mem u hv))]
      by_cases hnum : (u.first == "tala" || u.first == "töl") = true
      · rw [if_pos hnum]
        simp only [List.filter_cons]
        rw [if_pos hnum, List.length_cons]
        push_cast
        ring
      · rw [if_neg hnum]
        simp only [List.filter_cons]
        rw [if_neg hnum]
        ring

theorem dsum_numCross_zero (s : List Terminal) (t : Terminal)
    (hq : ((t.first == "no" || t.first == "töl") &&
      t.has_variant "ef") = false) :
    dsum t (numCrossDeltas s) = 0 := by
  apply dsum_zero
  intro p hp
  intro hh
  have hq1 := (numCrossDeltas_mem s p hp).1
  rw [hh, hq] at hq1
  cases hq1

theorem dsum_numCross_one (s : List Terminal) (t : Terminal)
    (hnd : s.Nodup) (ht : t ∈ s)
    (hq : ((t.first == "no" || t.first == "töl") &&
      t.has_variant "ef") = true) :
    dsum t (numCrossDeltas s) = -1 := by
  induction s with
  | nil => cases ht
  | cons u s ih =>
      by_cases hu : u = t
      · subst hu
        have hq1 : (u.first = "no" ∨ u.first = "töl") ∧
            u.has_variant "ef" = true := by simpa using hq
        have hstep : numCrossDeltas (u :: s) =
            (u, (-1 : Int)) :: numCrossDeltas s := by
          simp [numCrossDeltas, List.filterMap_cons, hq1]
        rw [hstep, dsum_cons, if_pos rfl]
        have hzero : dsum u (numCrossDeltas s) = 0 := by
          apply dsum_zero
          intro p hp
          have hmem := (numCrossDeltas_mem s p hp).2
          intro hh
          rw [hh] at hmem
          exact (List.nodup_cons.mp hnd).1 hmem
        rw [hzero]
        ring
      · have ht' : t ∈ s := by
          rcases List.mem_cons.mp ht with h | h
          · exact absurd h.symm hu
          · exact h
        have ih' := ih (List.nodup_cons.mp hnd).2 ht'
        by_cases hpu : ((u.first == "no" || u.first == "töl") &&
            u.has_variant "ef") = true
        · have hpu1 : (u.first = "no" ∨ u.first = "töl") ∧
              u.has_variant "ef" = true := by simpa using hpu
          have hstep : numCrossDeltas (u :: s) =
              (u, (-1 : Int)) :: numCrossDeltas s := by
            simp [numCrossDeltas, List.filterMap_cons, hpu1]
          rw [hstep, dsum_cons, if_neg (by simpa using hu), ih']
          ring
        · have hpu1 : ¬((u.first = "no" ∨ u.first = "töl") ∧
              u.has_variant "ef" = true) := by simpa using hpu
          have hstep : numCrossDeltas (u :: s) = numCrossDeltas s := by
            simp [numCrossDeltas, List.filterMap_cons, hpu1]
          rw [hstep, ih']

theorem scorePos_noPrefs (ext : ExtData) (wstart i : Nat)
    (s prevS : List Terminal) (tok : Token) (prev : RDict) (t : Terminal)
    (hlen : 1 < s.length) (ht : t ∈ s)
    (hprefs : ext.prefs tok.lower = []) :
    dlookup (scorePos ext wstart i s prevS tok prev).1 t =
      some (heurTot ext wstart i s prevS tok t s) := by
  rw [scorePos_fst ext wstart i s prevS tok prev t hlen ht]
  have hpr : (if sameFirst s then [] else ext.prefs tok.lower) =
      ([] : List (List String × List String × Int)) := by
    split
    · rfl
    · exact hprefs
  rw [hpr]
  simp [prefAdjFuns]

/-- C6: at an ambiguous position, and with no preference entry for the
token's text, a proper-noun (`sérnafn`) terminal's final score is exactly
the heuristic of lines 239-251: +2 when the token has no candidate lexical
meanings; otherwise -6, deepened to -10 when the position is the first of
the forest's span. -/
theorem claimC6_proper_noun_heuristic (ext : ExtData) (wstart i : Nat)
    (s prevS : List Terminal) (tok : Token) (prev : RDict) (t : Terminal)
    (hlen : 1 < s.length) (ht : t ∈ s) (hnd : s.Nodup)
    (hf : t.first = "sérnafn") (hprefs : ext.prefs tok.lower = []) :
    dlookup (scorePos ext wstart i s prevS tok prev).1 t =
      some (if tok.t2.isEmpty then 2
        else if i = wstart then -10 else -6) := by
  rw [scorePos_noPrefs ext wstart i s prevS tok prev t hlen ht hprefs]
  congr 1
  have hcross : ∀ u ∈ s, u ≠ t →
      dsum t (heurDeltas ext wstart i s prevS tok u).1 = 0 := by
    intro u hu hut
    exact heur_cross_zero ext wstart i s prevS tok u t hut (by simp [hf])
  rw [heurTot_single ext wstart i s prevS tok t s hnd ht hcross]
  by_cases h2 : tok.t2.isEmpty <;> by_cases hw : i = wstart <;>
    simp [heurDeltas, hf, h2, hw, dsum]

/-- C4 as amended: at an ambiguous position with no preference entry, a
`tala` terminal scores exactly -1; but a genitive `töl` or noun terminal
receives -1 for EACH numeral-category (`tala`/`töl`) terminal of the
candidate set (the inner loop of lines 236-238 runs once per trigger), not
exactly -1 overall. -/
theorem claimC4_amended (ext : ExtData) (wstart i : Nat)
    (s prevS : List Terminal) (tok : Token) (prev : RDict) (t : Terminal)
    (hlen : 1 < s.length) (ht : t ∈ s) (hnd : s.Nodup)
    (hprefs : ext.prefs tok.lower = []) :
    (t.first = "tala" →
      dlookup (scorePos ext wstart i s prevS tok prev).1 t = some (-1)) ∧
    (t.first = "töl" → t.has_variant "ef" = true →
      dlookup (scorePos ext wstart i s prevS tok prev).1 t =
        some (-((s.filter (fun u =>
          u.first == "tala" || u.first == "töl")).length : Int))) ∧
    (t.first = "no" → t.has_variant "ef" = true →
      t.is_singular = false → t.is_abbrev = false →
      dlookup (scorePos ext wstart i s prevS tok prev).1 t =
        some (-((s.filter (fun u =>
          u.first == "tala" || u.first == "töl")).length : Int))) := by
  refine ⟨?_, ?_, ?_⟩
  · intro hf
    rw [scorePos_noPrefs ext wstart i s prevS tok prev t hlen ht hprefs]
    congr 1
    have hcross : ∀ u ∈ s, u ≠ t →
        dsum t (heurDeltas ext wstart i s prevS tok u).1 = 0 := by
      intro u hu hut
      exact heur_cross_zero ext wstart i s prevS tok u t hut (by simp [hf])
    rw [heurTot_single ext wstart i s prevS tok t s hnd ht hcross]
    rw [heurDeltas_numeral ext wstart i s prevS tok t (by simp [hf])]
    show dsum t (_ ++ numCrossDeltas s) = -1
    rw [dsum_append, dsum_numCross_zero s t (by simp [hf])]
    simp [hf, dsum]
  · intro hf hef
    rw [scorePos_noPrefs ext wstart i s prevS tok prev t hlen ht hprefs]
    congr 1
    have hc : dsum t (numCrossDeltas s) = -1 :=
      dsum_numCross_one s t hnd ht (by simp [hf, hef])
    rw [heurTot_count ext wstart i s prevS tok t s (-1)]
    · ring
    · intro u hu
      by_cases hut : u = t
      · subst hut
        rw [heurDeltas_numeral ext wstart i s prevS tok u (by simp [hf])]
        show dsum u (_ ++ numCrossDeltas s) = _
        rw [dsum_append, hc]
        simp [hf, dsum]
      · rw [dsum_heur_other ext wstart i s prevS tok u t hut, hc]
  · intro hf hef hsing habb
    rw [scorePos_noPrefs ext wstart i s prevS tok prev t hlen ht hprefs]
    congr 1
    have hc : dsum t (numCrossDeltas s) = -1 :=
      dsum_numCross_one s t hnd ht (by simp [hf, hef])
    rw [heurTot_count ext wstart i s prevS tok t s (-1)]
    · ring
    · intro u hu
      by_cases hut : u = t
      · subst hut
        simp [heurDeltas, hf, hsing, habb, dsum]
      · rw [dsum_heur_other ext wstart i s prevS tok u t hut, hc]

/-- Witness for C6: the proper-noun terminal for a first-position token
with one lexical meaning scores -10. -/
theorem claimC6_proper_noun_heuristic_witness :
    (1 < ([tSer, tX] : List Terminal).length ∧ tSer ∈ [tSer, tX]) ∧
    dlookup (scorePos extEmpty 0 0 [tSer, tX] [] tokJon []).1 tSer =
      some (if tokJon.t2.isEmpty then 2
        else if 0 = 0 then -10 else -6) :=
  ⟨⟨by decide, by decide⟩,
   claimC6_proper_noun_heuristic extEmpty 0 0 [tSer, tX] [] tokJon [] tSer
     (by decide) (by decide) (by decide) rfl rfl⟩

/-- Witness for C4's amended claim: with the numeral candidates `tala` and
`töl_ef` the genitive numeral terminal scores -2, one -1 per
numeral-category terminal in the set. -/
theorem claimC4_amended_witness :
    (1 < ([tTala, tTolEf] : List Terminal).length ∧
      tTolEf ∈ [tTala, tTolEf]) ∧
    dlookup (scorePos extEmpty 0 0 [tTala, tTolEf] [] tokNum []).1 tTolEf =
      some (-((([tTala, tTolEf] : List Terminal).filter (fun u =>
        u.first == "tala" || u.first == "töl")).length : Int)) :=
  ⟨⟨by decide, by decide⟩,
   (claimC4_amended extEmpty 0 0 [tTala, tTolEf] [] tokNum [] tTolEf
     (by decide) (by decide) (by decide) rfl).2.1 rfl rfl⟩

theorem heurDeltas_flag (ext : ExtData) (wstart i : Nat)
    (s prevS : List Terminal) (tok : Token) (u : Terminal)
    (hflag : (heurDeltas ext wstart i s prevS tok u).2 = true) :
    u.first = "so" ∧ u.is_nh = true := by
  rw [heurDeltas] at hflag
  split_ifs at hflag <;> simp_all [soDeltas, soNhmFires]

theorem filter_length_one {α : Type} (l : List α) (p : α → Bool) (t : α)
    (hnd : l.Nodup) (ht : t ∈ l)
    (hmatch : ∀ u ∈ l, (p u = true ↔ u = t)) :
    (l.filter p).length = 1 := by
  induction l with
  | nil => cases ht
  | cons u l ih =>
      rw [List.filter_cons]
      by_cases hu : u = t
      · rw [if_pos ((hmatch u (List.mem_cons_self u l)).mpr hu)]
        have hnil : l.filter p = [] := by
          rw [List.filter_eq_nil]
          intro v hv hpv
          have hvt := (hmatch v (List.mem_cons_of_mem u hv)).mp hpv
          exact (List.nodup_cons.mp hnd).1 (hu ▸ hvt ▸ hv)
        rw [hnil]
        rfl
      · have hpu : ¬ (p u = true) :=
          fun hh => hu ((hmatch u (List.mem_cons_self u l)).mp hh)
        rw [if_neg hpu]
        have ht' : t ∈ l := by
          rcases List.mem_cons.mp ht with h | h
          · exact absurd h.symm hu
          · exact h
        exact ih (List.nodup_cons.mp hnd).2 ht'
          (fun v hv => hmatch v (List.mem_cons_of_mem u hv))

theorem patchNhm_lookup (pre : RDict) (pn : Terminal) (v : Int)
    (post : RDict) (hpre : ∀ q ∈ pre, q.1.first ≠ "nhm")
    (hpn : pn.first = "nhm") :
    dlookup (patchNhm (pre ++ (pn, v) :: post)) pn = some (v + 2) := by
  induction pre with
  | nil =>
      rw [List.nil_append]
      show dlookup (if pn.first == "nhm" then (pn, v + 2) :: post
        else (pn, v) :: patchNhm post) pn = _
      rw [if_pos (by simp [hpn])]
      rw [dlookup_cons, if_pos rfl]
  | cons q pre ih =>
      obtain ⟨a, b⟩ := q
      have hane : a.first ≠ "nhm" := hpre (a, b) (List.mem_cons_self _ _)
      rw [List.cons_append]
      show dlookup (if a.first == "nhm" then (a, b + 2) :: (pre ++ (pn, v) :: post)
        else (a, b) :: patchNhm (pre ++ (pn, v) :: post)) pn = _
      rw [if_neg (by simp [hane])]
      rw [dlookup_cons, if_neg (fun hh : a = pn => hane (hh ▸ hpn))]
      exact ih (fun q hq => hpre q (List.mem_cons_of_mem _ hq))

/-- C7: at an ambiguous position `i > 0` holding exactly one infinitive
verb terminal (`so` with the `nh` variant, its other verb sub-rules not
firing) and with an infinitive-marker (`nhm`) terminal among position
`i-1`'s candidates: the infinitive terminal receives +4, plus an
independent further +4 when some candidate is a plural genitive noun
alternative; and the dict of position `i - 1` is patched so that its first
`nhm` entry receives +2 (lines 217-230). -/
theorem claimC7_infinitive_bonus (ext : ExtData) (wstart i : Nat)
    (s prevS : List Terminal) (tok : Token) (prev : RDict) (t : Terminal)
    (hlen : 1 < s.length) (ht : t ∈ s) (hnd : s.Nodup)
    (hf : t.first = "so") (hnh : t.is_nh = true)
    (harg : pyInStr (t.variant 0) "012" = false)
    (hsagnb : t.is_sagnb = false) (hlh : t.is_lh = false)
    (hmmv : t.is_mm = false) (hvh : t.is_vh = false)
    (hsubj : t.is_subj = false)
    (hi : 0 < i)
    (hprev : prevS.any (fun pt => pt.first == "nhm") = true)
    (huniq : ∀ u ∈ s, u ≠ t → ¬(u.first = "so" ∧ u.is_nh = true))
    (hprefs : ext.prefs tok.lower = []) :
    dlookup (scorePos ext wstart i s prevS tok prev).1 t =
      some (4 + (if s.any (fun pt =>
        pt.first == "no" && pt.has_variant "ef" && pt.is_plural)
        then 4 else 0)) ∧
    (scorePos ext wstart i s prevS tok prev).2 = patchNhm prev ∧
    (∀ pre pn v post, prev = pre ++ (pn, v) :: post →
      (∀ q ∈ pre, q.1.first ≠ "nhm") → pn.first = "nhm" →
      dlookup (scorePos ext wstart i s prevS tok prev).2 pn =
        some (v + 2)) := by
  have hsnd : (scorePos ext wstart i s prevS tok prev).2 =
      patchNhm prev := by
    rw [scorePos_snd ext wstart i s prevS tok prev hlen]
    have hone : nhmFlags ext wstart i s prevS tok s = 1 := by
      rw [nhmFlags]
      apply filter_length_one s _ t hnd ht
      intro u hu
      constructor
      · intro hflag
        by_contra hut
        exact huniq u hu hut (heurDeltas_flag ext wstart i s prevS tok u hflag)
      · intro hut
        subst hut
        simp [heurDeltas, hf, soDeltas, soNhmFires, hnh, hi, hprev]
    rw [hone, Function.iterate_one]
  refine ⟨?_, hsnd, ?_⟩
  · rw [scorePos_noPrefs ext wstart i s prevS tok prev t hlen ht hprefs]
    congr 1
    have hcross : ∀ u ∈ s, u ≠ t →
        dsum t (heurDeltas ext wstart i s prevS tok u).1 = 0 := by
      intro u hu hut
      exact heur_cross_zero ext wstart i s prevS tok u t hut (by simp [hf])
    rw [heurTot_single ext wstart i s prevS tok t s hnd ht hcross]
    cases hpl : s.any (fun pt =>
        pt.first == "no" && pt.has_variant "ef" && pt.is_plural) <;>
      simp [heurDeltas, hf, soDeltas, soArgDelta, soFormDelta, soSubjDelta,
        soNhDelta, soNhmFires, harg, hsagnb, hlh, hmmv, hvh, hsubj, hnh, hi,
        hprev, hpl, dsum, dsum_append]
  · intro pre pn v post hdec hpre hpn
    rw [hsnd, hdec]
    exact patchNhm_lookup pre pn v post hpre hpn

/-- Witness for C7: `so_nh` after `nhm`, concrete two-terminal position. -/
theorem claimC7_infinitive_bonus_witness :
    (1 < ([tSoNh, tX] : List Terminal).length ∧
      ([tNhm] : List Terminal).any (fun pt => pt.first == "nhm") = true) ∧
    dlookup (scorePos extEmpty 0 1 [tSoNh, tX] [tNhm] tokFara
        [(tNhm, 0)]).1 tSoNh =
      some (4 + (if ([tSoNh, tX] : List Terminal).any (fun pt =>
        pt.first == "no" && pt.has_variant "ef" && pt.is_plural)
        then 4 else 0)) ∧
    (scorePos extEmpty 0 1 [tSoNh, tX] [tNhm] tokFara [(tNhm, 0)]).2 =
      patchNhm [(tNhm, 0)] ∧
    dlookup (scorePos extEmpty 0 1 [tSoNh, tX] [tNhm] tokFara
        [(tNhm, 0)]).2 tNhm = some (0 + 2) := by
  have h := claimC7_infinitive_bonus extEmpty 0 1 [tSoNh, tX] [tNhm]
    tokFara [(tNhm, 0)] tSoNh (by decide) (by decide) (by decide) rfl
    (by decide) (by decide) (by decide) (by decide) (by decide) (by decide)
    (by decide) (by decide) (by decide) (by decide) rfl
  exact ⟨⟨by decide, by decide⟩, h.1, h.2.1,
    h.2.2 [] tNhm 0 [] rfl (by simp) rfl⟩

theorem heurStep_eq (ext : ExtData) (wstart i : Nat)
    (s prevS : List Terminal) (tok : Token) (sc prev : RDict)
    (u : Terminal) :
    heurStep ext wstart i s prevS tok (sc, prev) u =
      (applyDeltas sc (heurDeltas ext wstart i s prevS tok u).1,
       if (heurDeltas ext wstart i s prevS tok u).2
       then patchNhm prev else prev) := rfl

theorem heurFold_keys (ext : ExtData) (wstart i : Nat)
    (s prevS : List Terminal) (tok : Token) (l : List Terminal)
    (sc prev : RDict) :
    ((l.foldl (heurStep ext wstart i s prevS tok) (sc, prev)).1).map
        Prod.fst = sc.map Prod.fst ∧
    ((l.foldl (heurStep ext wstart i s prevS tok) (sc, prev)).2).map
        Prod.fst = prev.map Prod.fst := by
  induction l generalizing sc prev with
  | nil => exact ⟨rfl, rfl⟩
  | cons u l ih =>
      rw [List.foldl_cons, heurStep_eq]
      have ih1 := ih (applyDeltas sc (heurDeltas ext wstart i s prevS tok u).1)
        (if (heurDeltas ext wstart i s prevS tok u).2
         then patchNhm prev else prev)
      constructor
      · rw [ih1.1, keys_applyDeltas]
      · rw [ih1.2]
        split
        · rw [keys_patchNhm]
        · rfl

theorem scorePos_eq_fold (ext : ExtData) (wstart i : Nat)
    (s prevS : List Terminal) (tok : Token) (prev : RDict)
    (hlen : ¬ (s.length ≤ 1)) :
    scorePos ext wstart i s prevS tok prev =
      s.foldl (heurStep ext wstart i s prevS tok)
        (applyPrefs (s.map (fun t => (t, 0))) s
          (if sameFirst s then [] else ext.prefs tok.lower), prev) := by
  simp only [scorePos]
  rw [if_neg hlen]

theorem map_fst_base (s : List Terminal) :
    List.map (Prod.fst ∘ fun t => (t, (0 : Int))) s = s := by
  induction s with
  | nil => rfl
  | cons a l ih => simp only [List.map_cons, Function.comp, ih]

theorem scorePos_keys (ext : ExtData) (wstart i : Nat)
    (s prevS : List Terminal) (tok : Token) (prev : RDict) :
    ((scorePos ext wstart i s prevS tok prev).1).map Prod.fst = s ∧
    ((scorePos ext wstart i s prevS tok prev).2).map Prod.fst =
      prev.map Prod.fst := by
  by_cases hlen : s.length ≤ 1
  · rw [scorePos_low ext wstart i s prevS tok prev hlen]
    constructor
    · rw [List.map_map]
      exact map_fst_base s
    · rfl
  · rw [scorePos_eq_fold ext wstart i s prevS tok prev hlen]
    have hk := heurFold_keys ext wstart i s prevS tok s
      (applyPrefs (s.map (fun t => (t, 0))) s
        (if sameFirst s then [] else ext.prefs tok.lower)) prev
    refine ⟨?_, hk.2⟩
    rw [hk.1, keys_applyPrefs, List.map_map]
    exact map_fst_base s


theorem slookup_append (l1 l2 : ScoreMap) (i : Nat) :
    slookup (l1 ++ l2) i =
      match slookup l1 i with
      | some d => some d
      | none => slookup l2 i := by
  induction l1 with
  | nil => rfl
  | cons p rest ih =>
      obtain ⟨j, d⟩ := p
      show slookup ((j, d) :: (rest ++ l2)) i = _
      by_cases h : j = i
      · simp [slookup, h]
      · simp only [slookup, if_neg h]
        exact ih

theorem slookup_cons (a : Nat) (b : RDict) (rest : ScoreMap) (j : Nat) :
    slookup ((a, b) :: rest) j = if a = j then some b else slookup rest j :=
  rfl

theorem slookup_updateEntry (scores : ScoreMap) (k : Nat) (d : RDict)
    (j : Nat) (hne : j ≠ k) :
    slookup (updateEntry scores k d) j = slookup scores j := by
  induction scores with
  | nil => rfl
  | cons p rest ih =>
      obtain ⟨a, b⟩ := p
      show slookup ((if a = k then (a, d) else (a, b)) ::
        updateEntry rest k d) j = _
      by_cases hak : a = k
      · have haj : ¬ (a = j) := fun hh => hne ((hh ▸ hak) : j = k)
        rw [if_pos hak, slookup_cons, slookup_cons, if_neg haj, if_neg haj,
          ih]
      · rw [if_neg hak, slookup_cons, slookup_cons]
        by_cases haj : a = j
        · rw [if_pos haj, if_pos haj]
        · rw [if_neg haj, if_neg haj, ih]

theorem slookup_updateEntry_self (scores : ScoreMap) (k : Nat) (d e : RDict)
    (hmem : slookup scores k = some e) :
    slookup (updateEntry scores k d) k = some d := by
  induction scores with
  | nil => cases hmem
  | cons p rest ih =>
      obtain ⟨a, b⟩ := p
      show slookup ((if a = k then (a, d) else (a, b)) ::
        updateEntry rest k d) k = _
      by_cases hak : a = k
      · rw [if_pos hak, slookup_cons, if_pos hak]
      · rw [if_neg hak, slookup_cons, if_neg hak]
        rw [slookup_cons, if_neg hak] at hmem
        exact ih hmem

theorem updateEntry_fst (scores : ScoreMap) (k : Nat) (d : RDict) :
    (updateEntry scores k d).map Prod.fst = scores.map Prod.fst := by
  induction scores with
  | nil => rfl
  | cons p rest ih =>
      obtain ⟨a, b⟩ := p
      show ((if a = k then (a, d) else (a, b)) ::
        updateEntry rest k d).map Prod.fst = _
      by_cases hak : a = k <;> simp [hak, ih]

theorem iterate_patchNhm_keys (n : Nat) (d : RDict) :
    (patchNhm^[n] d).map Prod.fst = d.map Prod.fst := by
  induction n generalizing d with
  | zero => rfl
  | succ n ih => rw [Function.iterate_succ_apply, ih, keys_patchNhm]

theorem dlookup_isSome_of_key (d : RDict) (t : Terminal)
    (ht : t ∈ d.map Prod.fst) : (dlookup d t).isSome = true := by
  induction d with
  | nil => cases ht
  | cons p rest ih =>
      obtain ⟨a, b⟩ := p
      rw [dlookup_cons]
      by_cases h : a = t
      · rw [if_pos h]
        rfl
      · rw [if_neg h]
        rcases List.mem_cons.mp ht with hh | hh
        · exact absurd hh.symm h
        · exact ih hh

theorem slookup_eq_none (scores : ScoreMap) (j : Nat)
    (h : ¬ j ∈ scores.map Prod.fst) : slookup scores j = none := by
  induction scores with
  | nil => rfl
  | cons p rest ih =>
      obtain ⟨a, b⟩ := p
      rw [slookup_cons, if_neg (fun hh : a = j => h (by simp [hh]))]
      exact ih (fun hh => h (by simp [hh]))

theorem finalsFold_nodup (i : Nat) (l : List (Nat × Token × Terminal)) :
    ∀ acc : List Terminal, acc.Nodup →
    (l.foldl (fun acc p =>
      if p.1 = i then (if p.2.2 ∈ acc then acc else acc ++ [p.2.2])
      else acc) acc).Nodup := by
  induction l with
  | nil => exact fun acc h => h
  | cons p l ih =>
      intro acc hnd
      rw [List.foldl_cons]
      apply ih
      split_ifs with h1 h2
      · exact hnd
      · rw [List.nodup_append]
        exact ⟨hnd, List.nodup_singleton _, by simp [h2]⟩
      · exact hnd

theorem finalsOf_nodup (w : PNode) (i : Nat) : (finalsOf w i).Nodup :=
  finalsFold_nodup i (nodeTokens w) [] List.nodup_nil

theorem finalsFold_mem (i : Nat) (t' : Terminal)
    (l : List (Nat × Token × Terminal)) :
    ∀ acc : List Terminal,
    (t' ∈ l.foldl (fun acc p =>
        if p.1 = i then (if p.2.2 ∈ acc then acc else acc ++ [p.2.2])
        else acc) acc ↔
      t' ∈ acc ∨ ∃ tk, (i, tk, t') ∈ l) := by
  induction l with
  | nil => intro acc; simp
  | cons p l ih =>
      intro acc
      obtain ⟨j, tk0, u⟩ := p
      rw [List.foldl_cons, ih]
      constructor
      · rintro (hmem | ⟨tk, hmem⟩)
        · split_ifs at hmem with h1 h2
          · exact Or.inl hmem
          · rcases List.mem_append.mp hmem with h | h
            · exact Or.inl h
            · rcases List.mem_singleton.mp h with rfl
              exact Or.inr ⟨tk0, by simp_all⟩
          · exact Or.inl hmem
        · exact Or.inr ⟨tk, List.mem_cons_of_mem _ hmem⟩
      · rintro (hacc | ⟨tk, hmem⟩)
        · left
          split_ifs with h1 h2
          · exact hacc
          · exact List.mem_append.mpr (Or.inl hacc)
          · exact hacc
        · rcases List.mem_cons.mp hmem with h | h
          · left
            have h1 : i = j := congrArg Prod.fst h
            have h3 : t' = u := congrArg (fun q => q.2.2) h
            subst h1
            subst h3
            split_ifs with hx hy <;> simp_all
          · exact Or.inr ⟨tk, h⟩

theorem finalsOf_mem (w : PNode) (i : Nat) (t' : Terminal) :
    t' ∈ finalsOf w i ↔ ∃ tk, (i, tk, t') ∈ nodeTokens w := by
  rw [finalsOf, finalsFold_mem i t' (nodeTokens w) []]
  simp

theorem stepPos_eq (ext : ExtData) (w : PNode) (scores : ScoreMap)
    (i : Nat) :
    stepPos ext w scores i =
      updateEntry scores (i - 1)
        ((scorePos ext w.startPos i (finalsOf w i)
          (if i == 0 then [] else finalsOf w (i - 1))
          ((tokensOf w i).getD emptyToken)
          ((slookup scores (i - 1)).getD [])).2) ++
      [(i, (scorePos ext w.startPos i (finalsOf w i)
          (if i == 0 then [] else finalsOf w (i - 1))
          ((tokensOf w i).getD emptyToken)
          ((slookup scores (i - 1)).getD [])).1)] := rfl

theorem calcScores_inv (ext : ExtData) (w : PNode) (n : Nat) :
    (((List.range' w.startPos n).foldl (stepPos ext w) []).map Prod.fst =
      List.range' w.startPos n) ∧
    (∀ j, w.startPos ≤ j → j < w.startPos + n →
      ∃ d, slookup ((List.range' w.startPos n).foldl (stepPos ext w) []) j =
        some d ∧ d.map Prod.fst = finalsOf w j) := by
  induction n with
  | zero => exact ⟨rfl, fun j h1 h2 => absurd h2 (by omega)⟩
  | succ n ih =>
      rw [List.range'_1_concat, List.foldl_append, List.foldl_cons,
        List.foldl_nil, stepPos_eq]
      obtain ⟨ihk, ihl⟩ := ih
      set S := (List.range' w.startPos n).foldl (stepPos ext w) [] with hS
      set i := w.startPos + n with hi
      set r := scorePos ext w.startPos i (finalsOf w i)
        (if i == 0 then [] else finalsOf w (i - 1))
        ((tokensOf w i).getD emptyToken)
        ((slookup S (i - 1)).getD []) with hr
      have hnotin : ¬ i ∈ S.map Prod.fst := by
        rw [ihk]
        intro hmem
        have := List.mem_range'_1.mp hmem
        omega
      constructor
      · rw [List.map_append, updateEntry_fst, ihk]
        rfl
      · intro j hj1 hj2
        rw [slookup_append]
        by_cases hji : j = i
        · have hnone : slookup (updateEntry S (i - 1) r.2) j = none := by
            apply slookup_eq_none
            rw [updateEntry_fst, hji]
            exact hnotin
          rw [hnone]
          refine ⟨r.1, ?_, ?_⟩
          · rw [slookup_cons, if_pos hji.symm]
          · rw [hji, hr]
            exact (scorePos_keys ext w.startPos i (finalsOf w i) _ _ _).1
        · have hjlt : j < w.startPos + n := by omega
          by_cases hjp : j = i - 1
          · subst hjp
            obtain ⟨d, hd, hdk⟩ := ihl (i - 1) hj1 hjlt
            have hupd : slookup (updateEntry S (i - 1) r.2) (i - 1) =
                some r.2 := slookup_updateEntry_self S (i - 1) r.2 d hd
            rw [hupd]
            refine ⟨r.2, rfl, ?_⟩
            have hkeys := (scorePos_keys ext w.startPos i (finalsOf w i)
              (if i == 0 then [] else finalsOf w (i - 1))
              ((tokensOf w i).getD emptyToken)
              ((slookup S (i - 1)).getD [])).2
            rw [← hr] at hkeys
            rw [hkeys, hd]
            show d.map Prod.fst = _
            exact hdk
          · obtain ⟨d, hd, hdk⟩ := ihl j hj1 hjlt
            rw [slookup_updateEntry S (i - 1) r.2 j hjp, hd]
            exact ⟨d, rfl, hdk⟩

theorem calcScores_keys (ext : ExtData) (w : PNode) (j : Nat)
    (h1 : w.startPos ≤ j) (h2 : j < w.endPos) :
    ∃ d, slookup (calcScores ext w) j = some d ∧
      d.map Prod.fst = finalsOf w j := by
  have h3 : j < w.startPos + (w.endPos - w.startPos) := by omega
  exact (calcScores_inv ext w (w.endPos - w.startPos)).2 j h1 h3

/-- C9: for every position, the option finder's candidate set (`finals[i]`,
built by set insertion at line 63) holds each terminal that matches the
token at that position anywhere in the forest exactly once — it is
duplicate-free and contains a terminal iff some token node carries it at
that position, no matter how many families or shared subderivations
reference the position — and within the forest's span the score dict built
for the position carries exactly those terminals as its keys, so each
matching terminal obtains exactly one score entry. -/
theorem claimC9_exactly_once (ext : ExtData) (w : PNode) (i : Nat)
    (t : Terminal) :
    (finalsOf w i).Nodup ∧
    (t ∈ finalsOf w i ↔ ∃ tk, (i, tk, t) ∈ nodeTokens w) ∧
    (w.startPos ≤ i → i < w.endPos →
      ∃ d, slookup (calcScores ext w) i = some d ∧
        d.map Prod.fst = finalsOf w i) :=
  ⟨finalsOf_nodup w i, finalsOf_mem w i t,
   fun h1 h2 => calcScores_keys ext w i h1 h2⟩

/-- Witness for C9 on a forest whose two families share the same token
position and terminal. -/
theorem claimC9_exactly_once_witness :
    (wShared.startPos ≤ 0 ∧ 0 < wShared.endPos) ∧
    (finalsOf wShared 0).Nodup ∧
    (tX ∈ finalsOf wShared 0 ↔ ∃ tk, (0, tk, tX) ∈ nodeTokens wShared) ∧
    (∃ d, slookup (calcScores extEmpty wShared) 0 = some d ∧
      d.map Prod.fst = finalsOf wShared 0) :=
  ⟨⟨by decide, by decide⟩, (claimC9_exactly_once extEmpty wShared 0 tX).1,
   (claimC9_exactly_once extEmpty wShared 0 tX).2.1,
   (claimC9_exactly_once extEmpty wShared 0 tX).2.2 (by decide) (by decide)⟩

/-- C10: when the passes run in the orchestrated order on one forest, the
reducer's token-node lookup `self._scores[node.start][node.terminal]`
(line 318) always succeeds: for every token node within the forest's span
(the parser's span invariant, taken as a hypothesis here) the option
finder recorded its terminal at its position, and the scorer created one
dict entry for it, so the KeyError branch (`none`) is unreachable. -/
theorem claimC10_token_lookup_safe (ext : ExtData) (w : PNode) (i : Nat)
    (tk : Token) (t : Terminal) (hmem : (i, tk, t) ∈ nodeTokens w)
    (h1 : w.startPos ≤ i) (h2 : i < w.endPos) :
    (scoreLookup (calcScores ext w) i t).isSome = true := by
  obtain ⟨d, hd, hdk⟩ := calcScores_keys ext w i h1 h2
  have heq : scoreLookup (calcScores ext w) i t = dlookup d t := by
    rw [scoreLookup, hd]
  rw [heq]
  apply dlookup_isSome_of_key
  rw [hdk]
  exact (finalsOf_mem w i t).mpr ⟨tk, hmem⟩

/-- Witness for C10 on the shared-subderivation forest. -/
theorem claimC10_token_lookup_safe_witness :
    ((0, tokX, tX) ∈ nodeTokens wShared ∧ wShared.startPos ≤ 0 ∧
      0 < wShared.endPos) ∧
    (scoreLookup (calcScores extEmpty wShared) 0 tX).isSome = true :=
  ⟨⟨by decide, by decide, by decide⟩,
   claimC10_token_lookup_safe extEmpty wShared 0 tokX tX (by decide)
     (by decide) (by decide)⟩

theorem kidsSingle_mem (cs : List PNode) (h : kidsSingle cs = true) :
    ∀ c ∈ cs, singleFam c = true := by
  induction cs with
  | nil => intro c hc; cases hc
  | cons d rest ih =>
      intro c hc
      simp only [kidsSingle, Bool.and_eq_true] at h
      rcases List.mem_cons.mp hc with rfl | hc2
      · exact h.1
      · exact ih h.2 c hc2

theorem reduceKids_eq (ext : ExtData) (scores : ScoreMap) (cs : List PNode)
    (h : ∀ c ∈ cs, reduceNode ext scores c = (c, leafAdjSum ext scores c)) :
    reduceKids ext scores cs = (cs, kidsLeafSum ext scores cs) := by
  induction cs with
  | nil => rfl
  | cons c rest ih =>
      simp only [reduceKids, kidsLeafSum]
      rw [h c (List.mem_cons_self c rest),
        ih (fun d hd => h d (List.mem_cons_of_mem c hd))]

theorem processResults_single (ext : ExtData) (a b : Nat) (comp : Bool)
    (nm : String) (p : Int) (cs : List PNode) (sc : Int) :
    processResults ext a b comp nm [(p, cs, sc)] =
      (PNode.nt a b comp nm [(p, cs)],
        sc + (if comp then ext.ntScores nm else 0)) := by
  cases comp <;> rfl

theorem sizeOf_child_lt (a b : Nat) (comp : Bool) (nm : String)
    (p : Int) (cs : List PNode) (c : PNode) (hc : c ∈ cs) :
    sizeOf c < sizeOf (PNode.nt a b comp nm [(p, cs)]) := by
  have h1 := List.sizeOf_lt_of_mem hc
  simp only [PNode.nt.sizeOf_spec, List.cons.sizeOf_spec,
    List.nil.sizeOf_spec, Prod.mk.sizeOf_spec]
  omega

/-- C2: if every nonterminal node of the forest has exactly one family
before reduction, reduction performs no structural change (the returned
node is the input node: no `reduce_to` fires, since every node takes the
single-result fast path of lines 343-345) and the returned root score is
the sum of the recorded scores of all token leaves plus the
grammar-declared adjustments of all completed nonterminal nodes. -/
theorem claimC2_no_ambiguity_identity (ext : ExtData) (scores : ScoreMap)
    (w : PNode) (h : singleFam w = true) :
    reduceNode ext scores w = (w, leafAdjSum ext scores w) := by
  have H : ∀ n (v : PNode), sizeOf v ≤ n → singleFam v = true →
      reduceNode ext scores v = (v, leafAdjSum ext scores v) := by
    intro n
    induction n with
    | zero =>
        intro v hsz hsf
        exfalso
        cases v <;> simp_all
    | succ n ihn =>
        intro v hsz hsf
        cases v with
        | eps => rfl
        | tok st tk t => rfl
        | nt a b comp nm fams =>
            simp only [singleFam, Bool.and_eq_true] at hsf
            obtain ⟨hlen, hfs⟩ := hsf
            obtain ⟨f, rfl⟩ := List.length_eq_one.mp (by simpa using hlen)
            obtain ⟨p, cs⟩ := f
            have hks : kidsSingle cs = true := by
              simp only [famsSingle, Bool.and_eq_true] at hfs
              exact hfs.1
            have hkids : ∀ c ∈ cs,
                reduceNode ext scores c = (c, leafAdjSum ext scores c) := by
              intro c hc
              apply ihn c
              · have := sizeOf_child_lt a b comp nm p cs c hc
                omega
              · exact kidsSingle_mem cs hks c hc
            simp only [reduceNode, reduceFams]
            rw [reduceKids_eq ext scores cs hkids]
            show processResults ext a b comp nm
              [(p, cs, kidsLeafSum ext scores cs)] = _
            rw [processResults_single]
            simp [leafAdjSum, famsLeafSum]
  exact H (sizeOf w) w le_rfl h

/-- Witness for C2 on a concrete single-family forest over one token. -/
theorem claimC2_no_ambiguity_identity_witness :
    singleFam wSingle = true ∧
    reduceNode extEmpty (calcScores extEmpty wSingle) wSingle =
      (wSingle, leafAdjSum extEmpty (calcScores extEmpty wSingle) wSingle) :=
  ⟨by decide,
   claimC2_no_ambiguity_identity extEmpty (calcScores extEmpty wSingle)
     wSingle (by decide)⟩

theorem addProd_none (r : RInfo) (ix0 : Nat) (p : Int)
    (h : r.highest_prio = none) :
    addProd r ix0 p = ⟨some p, r.use_prio, [ix0]⟩ := by
  simp [addProd, h]

theorem addProd_hp (r : RInfo) (ix0 : Nat) (p m : Int)
    (h : r.highest_prio = some m) :
    (addProd r ix0 p).highest_prio = some (min m p) := by
  simp only [addProd, h]
  split_ifs with h1 h2
  · simp [min_eq_right (le_of_lt h1)]
  · have hpm : p = m := by simpa using h2
    simp [hpm]
  · have hmp : m ≤ p := Int.not_lt.mp h1
    simp [min_eq_left hmp]

theorem addProd_use (r : RInfo) (ix0 : Nat) (p m : Int)
    (h : r.highest_prio = some m) :
    (addProd r ix0 p).use_prio = (r.use_prio || (p != m)) := by
  simp only [addProd, h]
  split_ifs <;> rfl

theorem addProds_hp_some (prios : List Int) :
    ∀ (r : RInfo) (m : Int) (ix0 : Nat), r.highest_prio = some m →
    (addProds r ix0 prios).highest_prio = some (prios.foldl min m) := by
  induction prios with
  | nil => intro r m ix0 h; exact h
  | cons p rest ih =>
      intro r m ix0 h
      show (addProds (addProd r ix0 p) (ix0 + 1) rest).highest_prio = _
      rw [List.foldl_cons]
      exact ih _ _ _ (addProd_hp r ix0 p m h)

theorem addProds_use_mono (prios : List Int) :
    ∀ (r : RInfo) (ix0 : Nat), r.use_prio = true →
    (addProds r ix0 prios).use_prio = true := by
  induction prios with
  | nil => intro r ix0 h; exact h
  | cons p rest ih =>
      intro r ix0 h
      apply ih
      simp only [addProd, h, Bool.true_or]
      cases hr : r.highest_prio
      · rfl
      · dsimp only
        split_ifs <;> rfl

theorem addProds_false_all (prios : List Int) :
    ∀ (r : RInfo) (m : Int) (ix0 : Nat), r.highest_prio = some m →
    (addProds r ix0 prios).use_prio = false →
    ∀ p ∈ prios, p = m := by
  induction prios with
  | nil => intro r m ix0 h hres p hp; cases hp
  | cons p rest ih =>
      intro r m ix0 h hres
      have hr1 : (addProd r ix0 p).use_prio = false := by
        cases hb : (addProd r ix0 p).use_prio
        · rfl
        · have h2 := addProds_use_mono rest (addProd r ix0 p) (ix0 + 1) hb
          have h3 : (addProds (addProd r ix0 p) (ix0 + 1) rest).use_prio =
              false := hres
          rw [h2] at h3
          cases h3
      have hpm : p = m := by
        rw [addProd_use r ix0 p m h] at hr1
        rcases Bool.or_eq_false_iff.mp hr1 with ⟨-, hne⟩
        simpa using hne
      intro q hq
      rcases List.mem_cons.mp hq with rfl | hq2
      · exact hpm
      · have hstep : (addProd r ix0 p).highest_prio = some m := by
          rw [addProd_hp r ix0 p m h, hpm, min_self]
        exact ih _ m _ hstep hres q hq2

theorem addProd_hix_maps (g : Nat → Option Int) (r : RInfo) (ix0 : Nat)
    (p : Int) (hr : ∀ ix ∈ r.highest_ix, g ix = r.highest_prio)
    (hg : g ix0 = some p) :
    ∀ ix ∈ (addProd r ix0 p).highest_ix,
      g ix = (addProd r ix0 p).highest_prio := by
  cases hhp : r.highest_prio with
  | none =>
      rw [addProd_none r ix0 p hhp]
      intro ix hix
      rcases List.mem_singleton.mp hix with rfl
      exact hg
  | some m =>
      simp only [addProd, hhp]
      split_ifs with h1 h2
      · intro ix hix
        rcases List.mem_singleton.mp hix with rfl
        exact hg
      · intro ix hix
        rcases List.mem_append.mp hix with hixo | hixn
        · rw [hr ix hixo, hhp]
        · rcases List.mem_singleton.mp hixn with rfl
          rw [hg]
          have : p = m := by simpa using h2
          rw [this]
      · intro ix hix
        rw [hr ix hix, hhp]

theorem addProds_hix_maps (prios : List Int) :
    ∀ (r : RInfo) (ix0 : Nat) (g : Nat → Option Int),
    (∀ ix ∈ r.highest_ix, g ix = r.highest_prio) →
    (∀ k p', prios.get? k = some p' → g (ix0 + k) = some p') →
    ∀ ix ∈ (addProds r ix0 prios).highest_ix,
      g ix = (addProds r ix0 prios).highest_prio := by
  induction prios with
  | nil => intro r ix0 g hr hg; exact hr
  | cons p rest ih =>
      intro r ix0 g hr hg
      apply ih
      · exact addProd_hix_maps g r ix0 p hr
          (by simpa using hg 0 p rfl)
      · intro k p' hk
        have h1 := hg (k + 1) p' (by simpa using hk)
        have h2 : ix0 + 1 + k = ix0 + (k + 1) := by omega
        rw [h2]
        exact h1

theorem addProd_hix_sub (r : RInfo) (ix0 : Nat) (p : Int) :
    ∀ ix ∈ (addProd r ix0 p).highest_ix,
      ix ∈ r.highest_ix ∨ ix = ix0 := by
  cases hhp : r.highest_prio with
  | none =>
      rw [addProd_none r ix0 p hhp]
      intro ix hix
      exact Or.inr (List.mem_singleton.mp hix)
  | some m =>
      simp only [addProd, hhp]
      split_ifs
      · intro ix hix
        exact Or.inr (List.mem_singleton.mp hix)
      · intro ix hix
        rcases List.mem_append.mp hix with h | h
        · exact Or.inl h
        · exact Or.inr (List.mem_singleton.mp h)
      · intro ix hix
        exact Or.inl hix

theorem addProds_hix_sub (prios : List Int) :
    ∀ (r : RInfo) (ix0 : Nat),
    ∀ ix ∈ (addProds r ix0 prios).highest_ix,
      ix ∈ r.highest_ix ∨ (ix0 ≤ ix ∧ ix < ix0 + prios.length) := by
  induction prios with
  | nil => intro r ix0 ix hix; exact Or.inl hix
  | cons p rest ih =>
      intro r ix0 ix hix
      rcases ih (addProd r ix0 p) (ix0 + 1) ix hix with h | h
      · rcases addProd_hix_sub r ix0 p ix h with h2 | h2
        · exact Or.inl h2
        · right
          subst h2
          simp only [List.length_cons]
          omega
      · right
        simp only [List.length_cons]
        omega

theorem addProds_hix_ne (prios : List Int) :
    ∀ (r : RInfo) (ix0 : Nat) (m : Int), r.highest_prio = some m →
    r.highest_ix ≠ [] → (addProds r ix0 prios).highest_ix ≠ [] := by
  induction prios with
  | nil => intro r ix0 m h hne; exact hne
  | cons p rest ih =>
      intro r ix0 m h hne
      apply ih (addProd r ix0 p) (ix0 + 1) (min m p) (addProd_hp r ix0 p m h)
      simp only [addProd, h]
      split_ifs <;> simp_all

theorem foldl_min_le_init (l : List Int) : ∀ a : Int, l.foldl min a ≤ a := by
  induction l with
  | nil => intro a; exact le_refl a
  | cons x xs ih =>
      intro a
      calc xs.foldl min (min a x) ≤ min a x := ih (min a x)
        _ ≤ a := min_le_left a x

theorem foldl_min_le_mem (l : List Int) :
    ∀ a q : Int, q ∈ l → l.foldl min a ≤ q := by
  induction l with
  | nil => intro a q hq; cases hq
  | cons x xs ih =>
      intro a q hq
      rcases List.mem_cons.mp hq with rfl | hq2
      · calc xs.foldl min (min a q) ≤ min a q := foldl_min_le_init xs _
          _ ≤ q := min_le_right a q
      · exact ih (min a x) q hq2

theorem foldl_min_mem (l : List Int) : ∀ a : Int, l.foldl min a ∈ a :: l := by
  induction l with
  | nil => intro a; exact List.mem_singleton.mpr rfl
  | cons x xs ih =>
      intro a
      rw [List.foldl_cons]
      rcases List.mem_cons.mp (ih (min a x)) with h | h
      · rcases min_choice a x with hc | hc
        · rw [h, hc]
          exact List.mem_cons_self a (x :: xs)
        · rw [h, hc]
          exact List.mem_cons_of_mem a (List.mem_cons_self x xs)
      · exact List.mem_cons_of_mem a (List.mem_cons_of_mem x h)

theorem mkRInfo_use_true (prios : List Int)
    (hdiff : ∃ p1 ∈ prios, ∃ p2 ∈ prios, p1 ≠ p2) :
    (mkRInfo true prios).use_prio = true := by
  obtain ⟨p1, hp1, p2, hp2, hpne⟩ := hdiff
  cases hb : (mkRInfo true prios).use_prio
  · exfalso
    cases prios with
    | nil => cases hp1
    | cons q rest =>
        have hstep : mkRInfo true (q :: rest) =
            addProds ⟨some q, false, [0]⟩ 1 rest := by
          show addProds (addProd ⟨none, false, []⟩ 0 q) 1 rest = _
          rw [addProd_none ⟨none, false, []⟩ 0 q rfl]
        rw [hstep] at hb
        have hall := addProds_false_all rest ⟨some q, false, [0]⟩ q 1 rfl hb
        have h1 : p1 = q := by
          rcases List.mem_cons.mp hp1 with rfl | h
          · rfl
          · exact hall p1 h
        have h2 : p2 = q := by
          rcases List.mem_cons.mp hp2 with rfl | h
          · rfl
          · exact hall p2 h
        exact hpne (h1.trans h2.symm)
  · rfl

theorem mkRInfo_spec (prios : List Int) (hne : prios ≠ []) :
    ∃ m, (mkRInfo true prios).highest_prio = some m ∧ m ∈ prios ∧
      (∀ q ∈ prios, m ≤ q) ∧ (mkRInfo true prios).highest_ix ≠ [] ∧
      ∀ ix ∈ (mkRInfo true prios).highest_ix,
        prios.get? ix = some m ∧ ix < prios.length := by
  cases prios with
  | nil => exact absurd rfl hne
  | cons q rest =>
      have hstep : mkRInfo true (q :: rest) =
          addProds ⟨some q, false, [0]⟩ 1 rest := by
        show addProds (addProd ⟨none, false, []⟩ 0 q) 1 rest = _
        rw [addProd_none ⟨none, false, []⟩ 0 q rfl]
      refine ⟨rest.foldl min q, ?_, ?_, ?_, ?_, ?_⟩
      · rw [hstep]
        exact addProds_hp_some rest ⟨some q, false, [0]⟩ q 1 rfl
      · exact foldl_min_mem rest q
      · intro t ht
        rcases List.mem_cons.mp ht with rfl | ht2
        · exact foldl_min_le_init rest t
        · exact foldl_min_le_mem rest q t ht2
      · rw [hstep]
        exact addProds_hix_ne rest ⟨some q, false, [0]⟩ 1 q rfl (by simp)
      · intro ix hix
        rw [hstep] at hix
        have hg1 : ∀ j ∈ (⟨some q, false, [0]⟩ : RInfo).highest_ix,
            (q :: rest).get? j = (⟨some q, false, [0]⟩ : RInfo).highest_prio := by
          intro j hj
          rcases List.mem_singleton.mp hj with rfl
          rfl
        have hg2 : ∀ k p', rest.get? k = some p' →
            (q :: rest).get? (1 + k) = some p' := by
          intro k p' hk
          have h1 : 1 + k = k + 1 := by omega
          rw [h1]
          simpa using hk
        have hmap := addProds_hix_maps rest ⟨some q, false, [0]⟩ 1
          (fun j => (q :: rest).get? j) hg1 hg2 ix hix
        have hhp := addProds_hp_some rest ⟨some q, false, [0]⟩ q 1 rfl
        constructor
        · have h3 : (q :: rest).get? ix =
              (addProds ⟨some q, false, [0]⟩ 1 rest).highest_prio := hmap
          rw [h3, hhp]
        · rcases addProds_hix_sub rest ⟨some q, false, [0]⟩ 1 ix hix with h | h
          · rcases List.mem_singleton.mp h with rfl
            simp
          · simp only [List.length_cons]
            omega

theorem foldl_pick_mem (xs : List (Nat × Int)) :
    ∀ b : Nat × Int,
      xs.foldl (fun b y => if y.2 > b.2 then y else b) b ∈ b :: xs := by
  induction xs with
  | nil => intro b; exact List.mem_singleton.mpr rfl
  | cons x rest ih =>
      intro b
      rw [List.foldl_cons]
      rcases List.mem_cons.mp (ih (if x.2 > b.2 then x else b)) with h | h
      · rw [h]
        split_ifs
        · exact List.mem_cons_of_mem b (List.mem_cons_self x rest)
        · exact List.mem_cons_self b (x :: rest)
      · exact List.mem_cons_of_mem b (List.mem_cons_of_mem x h)

theorem pickBest_mem (l : List (Nat × Int)) (h : l ≠ []) : pickBest l ∈ l := by
  cases l with
  | nil => exact absurd rfl h
  | cons x xs => exact foldl_pick_mem xs x

theorem enumF_get {α : Type} (l : List α) :
    ∀ (ix0 ix : Nat) (v : α), (ix, v) ∈ enumF ix0 l →
      ix0 ≤ ix ∧ l.get? (ix - ix0) = some v := by
  induction l with
  | nil => intro ix0 ix v h; cases h
  | cons x xs ih =>
      intro ix0 ix v h
      rcases List.mem_cons.mp h with h1 | h2
      · simp only [Prod.mk.injEq] at h1
        obtain ⟨rfl, rfl⟩ := h1
        exact ⟨le_refl ix, by simp⟩
      · obtain ⟨hle, hget⟩ := ih (ix0 + 1) ix v h2
        refine ⟨by omega, ?_⟩
        have hk : ix - ix0 = (ix - (ix0 + 1)) + 1 := by omega
        rw [hk]
        simpa using hget

theorem enumF_mem_of_lt {α : Type} (l : List α) :
    ∀ (ix0 k : Nat), k < l.length → ∃ v, (ix0 + k, v) ∈ enumF ix0 l := by
  induction l with
  | nil => intro ix0 k h; simp at h
  | cons x xs ih =>
      intro ix0 k h
      cases k with
      | zero => exact ⟨x, by simp [enumF]⟩
      | succ j =>
          obtain ⟨v, hv⟩ := ih (ix0 + 1) j (by simpa using h)
          refine ⟨v, ?_⟩
          have he : ix0 + (j + 1) = (ix0 + 1) + j := by omega
          rw [he]
          exact List.mem_cons_of_mem _ hv

theorem reduceFams_fst (ext : ExtData) (scores : ScoreMap)
    (fams : List (Int × List PNode)) :
    (reduceFams ext scores fams).map (fun f => f.1) = fams.map Prod.fst := by
  induction fams with
  | nil => simp [reduceFams]
  | cons f rest ih => simp [reduceFams, ih]

theorem processResults_prio (ext : ExtData) (a b : Nat) (nm : String)
    (rf : List (Int × List PNode × Int))
    (hdiff : ∃ p1 ∈ rf.map (fun f => f.1), ∃ p2 ∈ rf.map (fun f => f.1),
      p1 ≠ p2) :
    ∃ p cs sc,
      processResults ext a b true nm rf =
        (PNode.nt a b true nm [(p, cs)], sc) ∧
      p ∈ rf.map (fun f => f.1) ∧
      ∀ q ∈ rf.map (fun f => f.1), p ≤ q := by
  obtain ⟨p1, hp1, p2, hp2, hpne⟩ := hdiff
  have hnil : rf.map (fun f => f.1) ≠ [] := by
    intro h
    rw [h] at hp1
    cases hp1
  obtain ⟨m, hm, hmmem, hmle, hixne, hixprop⟩ :=
    mkRInfo_spec (rf.map (fun f => f.1)) hnil
  have hup : (mkRInfo true (rf.map (fun f => f.1))).use_prio = true :=
    mkRInfo_use_true _ ⟨p1, hp1, p2, hp2, hpne⟩
  obtain ⟨ix0, hix0⟩ :=
    List.exists_mem_of_ne_nil _ hixne
  have hix0lt : ix0 < rf.length := by
    have h1 := (hixprop ix0 hix0).2
    simpa using h1
  obtain ⟨v0, hv0⟩ := enumF_mem_of_lt (rf.map (fun f => f.2.2)) 0 ix0
    (by simpa using hix0lt)
  have hv0m : (ix0, v0) ∈ enumF 0 (rf.map (fun f => f.2.2)) := by
    simpa using hv0
  have hne1 : (enumF 0 (rf.map (fun f => f.2.2))).filter
      (fun p => (mkRInfo true (rf.map (fun f => f.1))).highest_ix.contains
        p.1) ≠ [] := by
    intro hemp
    have hin : (ix0, v0) ∈ (enumF 0 (rf.map (fun f => f.2.2))).filter
        (fun p => (mkRInfo true (rf.map (fun f => f.1))).highest_ix.contains
          p.1) := by
      apply List.mem_filter.mpr
      refine ⟨hv0m, ?_⟩
      simp only [List.contains]
      simpa [List.elem_iff] using hix0
    rw [hemp] at hin
    cases hin
  have hbest := pickBest_mem _ hne1
  obtain ⟨hbcsc, hbcont⟩ := List.mem_filter.mp hbest
  have hbix : (pickBest ((enumF 0 (rf.map (fun f => f.2.2))).filter
      (fun p => (mkRInfo true (rf.map (fun f => f.1))).highest_ix.contains
        p.1))).1 ∈ (mkRInfo true (rf.map (fun f => f.1))).highest_ix := by
    simpa [List.contains, List.elem_iff] using hbcont
  have hbget := (hixprop _ hbix).1
  rw [List.get?_map] at hbget
  obtain ⟨fam0, hfam0, hfam0m⟩ : ∃ fam0,
      rf.get? (pickBest ((enumF 0 (rf.map (fun f => f.2.2))).filter
        (fun p => (mkRInfo true (rf.map (fun f => f.1))).highest_ix.contains
          p.1))).1 = some fam0 ∧ fam0.1 = m := by
    rcases hf : rf.get? (pickBest ((enumF 0 (rf.map (fun f => f.2.2))).filter
        (fun p => (mkRInfo true (rf.map (fun f => f.1))).highest_ix.contains
          p.1))).1 with _ | fam0
    · rw [hf] at hbget
      cases hbget
    · rw [hf] at hbget
      exact ⟨fam0, hf, by simpa using hbget⟩
  refine ⟨m, fam0.2.1,
    (pickBest ((enumF 0 (rf.map (fun f => f.2.2))).filter
      (fun p => (mkRInfo true (rf.map (fun f => f.1))).highest_ix.contains
        p.1))).2 + ext.ntScores nm, ?_, hmmem, hmle⟩
  have ht : (true = true) := rfl
  simp only [processResults]
  rw [hup, Bool.not_true, Bool.and_false]
  rw [if_neg Bool.false_ne_true]
  rw [if_pos ht, if_pos True.intro]
  rw [hfam0, Option.getD_some, hfam0m]

/-- C1: on a completed nonterminal node whose families carry differing
production priorities, `_process_results` (lines 334-351, driven by the
priority state of `add_child_production`, lines 285-300) collapses the node
to a single family whose production priority is the minimum priority among
the node's families, regardless of the families' scores: a family of
non-minimal priority is never selected. -/
theorem claimC1_priority_dominance (ext : ExtData) (scores : ScoreMap)
    (a b : Nat) (nm : String) (fams : List (Int × List PNode))
    (hdiff : ∃ p1 ∈ fams.map Prod.fst, ∃ p2 ∈ fams.map Prod.fst, p1 ≠ p2) :
    ∃ p cs sc,
      reduceNode ext scores (PNode.nt a b true nm fams) =
        (PNode.nt a b true nm [(p, cs)], sc) ∧
      p ∈ fams.map Prod.fst ∧ ∀ q ∈ fams.map Prod.fst, p ≤ q := by
  have hfst := reduceFams_fst ext scores fams
  have hdiff2 : ∃ p1 ∈ (reduceFams ext scores fams).map (fun f => f.1),
      ∃ p2 ∈ (reduceFams ext scores fams).map (fun f => f.1), p1 ≠ p2 := by
    rw [hfst]
    exact hdiff
  obtain ⟨p, cs, sc, heq, hmem, hle⟩ :=
    processResults_prio ext a b nm (reduceFams ext scores fams) hdiff2
  rw [hfst] at hmem hle
  refine ⟨p, cs, sc, ?_, hmem, hle⟩
  simp only [reduceNode]
  exact heq

/-- Witness for C1: on the forest `wPrio`, whose root has a priority-1
family holding a token leaf that `scPrio` scores at 100 and a priority-0
family holding only an epsilon leaf, reduction must keep a family of the
minimal priority 0 — the high-scoring family loses on priority. -/
theorem claimC1_priority_dominance_witness :
    ∃ p cs sc,
      reduceNode extEmpty scPrio (PNode.nt 0 1 true "S"
          [(1, [PNode.tok 0 tokX tX]), (0, [PNode.eps])]) =
        (PNode.nt 0 1 true "S" [(p, cs)], sc) ∧
      p ∈ ([((1 : Int), [PNode.tok 0 tokX tX]),
        ((0 : Int), [PNode.eps])].map Prod.fst) ∧
      ∀ q ∈ ([((1 : Int), [PNode.tok 0 tokX tX]),
        ((0 : Int), [PNode.eps])].map Prod.fst), p ≤ q :=
  claimC1_priority_dominance extEmpty scPrio 0 1 "S"
    [(1, [PNode.tok 0 tokX tX]), (0, [PNode.eps])]
    ⟨1, by decide, 0, by decide, by decide⟩
